import Mathlib

/-!
# Click-race game: the room session engine of `backend/functions/game.js`

A shallow embedding of the handlers `handleJoin`, `handleClick`, `getLeaderboard`,
`getRoomState`, `endGame`, `sendMessage` and `broadcastToRoom`.

* The DynamoDB table is three keyed stores, one per item kind: connection records
  (`CONN#id`), rooms (`ROOM#id`) and leaderboard items (`SCORE#room` / `PLAYER#name`).
  The key prefixes keep the three kinds apart, so the split loses nothing.
* `room.players` is a JavaScript ordinary object: its own properties in property
  enumeration order, with reads falling back to `Object.prototype`. The player name
  `__proto__` is the one name this representation does not cover in full: a join under
  it stores entries that are not player objects, which a room only records by the mark
  `foreignEntries`, and the properties about stored player lists leave such joins out.
* Every `Date.now()` of a handler is a separate argument of the handler's model, and an
  action of a trace supplies each of them separately; the clicks counter found on an
  inherited (non-player) object is an argument as well.
* A handler returns the new stores together with the deliveries it attempts
  (`postToConnection` calls, in program order) and the timers it arms (`setTimeout`).
-/

namespace ClickRace

/-! ## JavaScript ordinary objects keyed by strings -/

namespace JSObject

/-- The property names every plain object inherits from `Object.prototype`; each of them
reads as a truthy value (a function, or the prototype object itself for `__proto__`). -/
def objectPrototypeKeys : List String :=
  ["constructor", "__defineGetter__", "__defineSetter__", "hasOwnProperty",
   "__lookupGetter__", "__lookupSetter__", "isPrototypeOf", "propertyIsEnumerable",
   "toString", "valueOf", "__proto__", "toLocaleString"]

/-- Value of a string of decimal digits, most significant digit first. -/
def digitsValue (cs : List Char) : Nat :=
  cs.foldl (fun n c => 10 * n + (c.toNat - 48)) 0

/-- The array index a property name denotes, if any: a canonical decimal numeral (no
sign, no leading zero) below `2^32 - 1`. Such keys are enumerated first, in ascending
numeric order, whatever the order in which they were created. -/
def arrayIndex? (k : String) : Option Nat :=
  match k.toList with
  | [] => none
  | c :: cs =>
    if (c :: cs).all Char.isDigit && (c != '0' || cs.isEmpty) then
      (if digitsValue (c :: cs) < 4294967295 then some (digitsValue (c :: cs)) else none)
    else none

/-- Own property lookup (`hasOwnProperty` and the value). -/
def own {α : Type} : List (String × α) → String → Option α
  | [], _ => none
  | (k, v) :: t, q => if k = q then some v else own t q

/-- Result of the property read `o[k]`: an own property, the prototype object itself
(the read `o["__proto__"]`), a function inherited from `Object.prototype`, or
`undefined`. -/
inductive Lookup (α : Type) where
  | own (v : α)
  | prototype
  | inherited
  | absent
deriving DecidableEq, Repr

/-- The property read `o[k]` on a plain object: the own property if there is one, else
what `Object.prototype` provides (for `__proto__` the prototype object itself), else
`undefined`. -/
def get {α : Type} (o : List (String × α)) (k : String) : Lookup α :=
  match own o k with
  | some v => Lookup.own v
  | none =>
    if k = "__proto__" then Lookup.prototype
    else if k ∈ objectPrototypeKeys then Lookup.inherited else Lookup.absent

/-- Overwrite the value of the own property `k`, keeping its position. -/
def replace {α : Type} : List (String × α) → String → α → List (String × α)
  | [], _, _ => []
  | (k0, v0) :: t, k, v => if k0 = k then (k0, v) :: t else (k0, v0) :: replace t k v

/-- Create the array-index property `k` (of index `n`): it goes before the first own
property that is not an array index or has a larger index. -/
def insertIndex {α : Type} : List (String × α) → Nat → String → α → List (String × α)
  | [], _, k, v => [(k, v)]
  | (k0, v0) :: t, n, k, v =>
    match arrayIndex? k0 with
    | some m => if m < n then (k0, v0) :: insertIndex t n k v else (k, v) :: (k0, v0) :: t
    | none => (k, v) :: (k0, v0) :: t

/-- The own properties after the assignment `o[k] = v` of an object value `v`: an
existing own property keeps its position; `__proto__` without an own property goes to
the inherited setter, which makes `v` the prototype of `o` and creates no own property
(what that does to the stored room is recorded by `storedRoom`); a new array index is
placed in numeric order; any other new key is appended. -/
def set {α : Type} (o : List (String × α)) (k : String) (v : α) : List (String × α) :=
  match own o k with
  | some _ => replace o k v
  | none =>
    if k = "__proto__" then o
    else match arrayIndex? k with
      | some n => insertIndex o n k v
      | none => o ++ [(k, v)]

/-- Names of the own properties in enumeration order: `Object.keys(o)`. -/
def keys {α : Type} (o : List (String × α)) : List String := o.map Prod.fst

/-- Values of the own properties in enumeration order: `Object.values(o)`. -/
def values {α : Type} (o : List (String × α)) : List α := o.map Prod.snd

end JSObject

/-! ## Keyed stores -/

namespace Table

/-- Read the item stored under a key. -/
def get {κ α : Type} [DecidableEq κ] : List (κ × α) → κ → Option α
  | [], _ => none
  | (k, v) :: t, q => if k = q then some v else get t q

/-- Full replace of the item under a key (`dynamodb.put`), creating it when absent. -/
def put {κ α : Type} [DecidableEq κ] : List (κ × α) → κ → α → List (κ × α)
  | [], k, v => [(k, v)]
  | (k0, v0) :: t, k, v => if k0 = k then (k, v) :: t else (k0, v0) :: put t k v

end Table

/-! ## Data model -/

/-- The game state of a room: `waiting`, `playing`, `ended`. -/
inductive GameState where
  | waiting
  | playing
  | ended
deriving DecidableEq, Repr

/-- A player entry of `room.players`. -/
structure Player where
  name : String
  clicks : Nat
  joinedAt : Nat
  connectionId : String
deriving DecidableEq, Repr

/-- The room item (`PK = ROOM#roomId`, `SK = METADATA`). `gameStartedAt` and `gameEndsAt`
are absent until a click starts the game. `players` lists the player entries of the
stored map. `foreignEntries` marks a room into which a join under `__proto__` has been
stored: the map written by `dynamodb.put` then also holds the fields of that join's
entry (`name`, `clicks`, `joinedAt`, `connectionId`) as entries that are not player
objects; `players` does not list them and what the handlers read from them is not
represented. -/
structure Room where
  roomId : String
  players : List (String × Player)
  gameState : GameState
  createdAt : Nat
  gameDuration : Nat
  gameStartedAt : Option Nat
  gameEndsAt : Option Nat
  foreignEntries : Bool := false
deriving DecidableEq, Repr

/-- A connection item (`PK = CONN#id`). The attribute `connectionId` is written by the
connect handler; `playerName` and `roomId` are set by `handleJoin`. -/
structure Connection where
  connectionId : Option String
  playerName : Option String
  roomId : Option String
deriving DecidableEq, Repr

/-- A leaderboard item (`PK = SCORE#roomId`, `SK = PLAYER#playerName`,
`GSI1PK = LEADERBOARD#roomId`). -/
structure ScoreItem where
  roomId : String
  playerName : String
  GSI1SK : Nat
  clicks : Nat
  updatedAt : Option Nat
deriving DecidableEq, Repr

/-- The table: connection directory, room store and leaderboard index. -/
structure State where
  conns : List (String × Connection)
  rooms : List (String × Room)
  scores : List ((String × String) × ScoreItem)
deriving DecidableEq, Repr

/-- One entry of a ranked scores list. -/
structure Score where
  name : String
  clicks : Nat
deriving DecidableEq, Repr

/-- The messages the engine sends. In `scoreUpdate` the time is `none` when the
computation yields `NaN` (a room without `gameEndsAt`). `thrown` is the `error` reply
that the `catch` of `exports.handler` builds from an exception: its text is the
message of the exception, which is the throwing library's. -/
inductive Message where
  | error (message : String)
  | thrown
  | playerJoined (playerName : String) (players : List String) (gameState : GameState)
  | joined (roomId playerName : String) (players : List String) (gameState : GameState)
  | scoreUpdate (scores : List Score) (timeRemaining : Option Int)
  | clickRegistered (clicks : Nat)
  | leaderboard (roomId : String) (leaderboard : List Score)
  | roomState (roomId : String) (gameState : GameState) (players : List String)
      (scores : List Score) (timeRemaining : Int)
  | gameEnded (finalScores : List Score) (winner : Option Score)
deriving DecidableEq, Repr

/-- What a handler does besides writing the table: the deliveries it attempts, as
(connection, message) in program order, and the timers it arms, as (roomId, delay in
milliseconds) of `setTimeout(() => endGame(roomId), delay)`. -/
structure Output where
  sends : List (String × Message)
  timers : List (String × Nat)
deriving DecidableEq, Repr

/-! ## Helpers of the handlers -/

/-- The call `arr.sort(cmp)`: a stable sort (ECMAScript 2019) that puts `a` before `b`
when `cmp a b` is negative and keeps the input order of `a`, `b` when it is zero. -/
def arraySort {α : Type} (cmp : α → α → Int) (l : List α) : List α :=
  l.insertionSort (fun a b => cmp a b ≤ 0)

/-- The ranked list of `handleClick`, `getRoomState` and `endGame`:
`Object.values(room.players).map(p => (name, clicks || 0)).sort((a, b) => b.clicks - a.clicks)`. -/
def rankScores (players : List (String × Player)) : List Score :=
  arraySort (fun a b => (b.clicks : Int) - (a.clicks : Int))
    ((JSObject.values players).map (fun p => { name := p.name, clicks := p.clicks }))

/-- The value `Math.ceil(x / 1000)` for an integer `x` (the floating-point quotient
rounds to the same ceiling for every integer of magnitude below `2^53`). -/
def ceilDiv1000 (x : Int) : Int := -((-x) / 1000)

/-- The value `Math.max(0, Math.ceil((gameEndsAt - now) / 1000))`. -/
def secondsLeft (gameEndsAt now : Nat) : Int :=
  max 0 (ceilDiv1000 ((gameEndsAt : Int) - (now : Int)))

/-- The `timeRemaining` of `scoreUpdate`: `none` (NaN) when `gameEndsAt` is undefined. -/
def clickTimeRemaining (room : Room) (now : Nat) : Option Int :=
  room.gameEndsAt.map (fun e => secondsLeft e now)

/-- The `timeRemaining` of `roomState`:
`room.gameEndsAt ? Math.max(0, ...) : room.gameDuration` (a `gameEndsAt` of 0 is falsy). -/
def roomStateTimeRemaining (room : Room) (now : Nat) : Int :=
  match room.gameEndsAt with
  | some e => if e = 0 then (room.gameDuration : Int) else secondsLeft e now
  | none => (room.gameDuration : Int)

/-- A delivery attempt by `sendMessage`. -/
def sendMessage (connectionId : String) (data : Message) : List (String × Message) :=
  [(connectionId, data)]

/-- Whether a scanned item passes
`item.connectionId && item.connectionId !== excludeConnectionId`. -/
def isRecipient (excludeConnectionId : Option String) (c : Connection) : Bool :=
  match c.connectionId with
  | some id => id != "" && some id != excludeConnectionId
  | none => false

/-- The deliveries attempted by `broadcastToRoom`: the scan keeps the items whose
`roomId` attribute is the room; room and leaderboard items carry no `connectionId`
attribute and are dropped by the filter, so only connection items remain. -/
def broadcastToRoom (conns : List (String × Connection)) (roomId : String) (data : Message)
    (excludeConnectionId : Option String) : List (String × Message) :=
  (conns.filter (fun kc =>
      decide (kc.2.roomId = some roomId) && isRecipient excludeConnectionId kc.2)).map
    (fun kc => (kc.2.connectionId.getD "", data))

/-- The `dynamodb.update` of `handleJoin` on the connection item: sets `playerName` and
`roomId`, creating the item (without a `connectionId` attribute) when it is absent. -/
def bindConnection (conns : List (String × Connection)) (connectionId playerName roomId : String) :
    List (String × Connection) :=
  match Table.get conns connectionId with
  | some c => Table.put conns connectionId
      { c with playerName := some playerName, roomId := some roomId }
  | none => Table.put conns connectionId
      { connectionId := none, playerName := some playerName, roomId := some roomId }

/-- A request field that is present and truthy (a non-empty string). -/
def truthy (field : Option String) : Option String :=
  match field with
  | some v => if v = "" then none else some v
  | none => none

/-! ## The handlers -/

/-- The room `handleJoin` creates when none is stored under `roomId`. -/
def newRoom (roomId : String) (createdAt : Nat) : Room :=
  { roomId := roomId, players := [], gameState := GameState.waiting, createdAt := createdAt,
    gameDuration := 30, gameStartedAt := none, gameEndsAt := none }

/-- The room item `dynamodb.put` writes for the in-memory room after the assignment
`room.players[playerName] = entry`, where `before` are the players as loaded. The
assignment to `__proto__` (without such an own property) makes the entry the prototype
of `room.players`, and the write then stores the entry's fields as further entries of
the map: the stored room carries the mark `foreignEntries`. For every other name the
item is the in-memory room. -/
def storedRoom (before : List (String × Player)) (playerName : String) (room : Room) : Room :=
  if playerName = "__proto__" ∧ JSObject.own before playerName = none then
    { room with foreignEntries := true }
  else room

/-- The handler `handleJoin(connectionId, data)`: `tCreated` and `tJoined` are its two
`Date.now()` readings (`createdAt` of a new room, `joinedAt` of the player). The
messages carry `Object.keys` of the in-memory players. -/
def handleJoin (tCreated tJoined : Nat) (connectionId : String)
    (playerName roomId : Option String) (s : State) : State × Output :=
  match truthy playerName, truthy roomId with
  | some pn, some rid =>
    let conns := bindConnection s.conns connectionId pn rid
    let room0 := match Table.get s.rooms rid with
      | some r => r
      | none => newRoom rid tCreated
    let player : Player :=
      { name := pn, clicks := 0, joinedAt := tJoined, connectionId := connectionId }
    let room := { room0 with players := JSObject.set room0.players pn player }
    let rooms := Table.put s.rooms rid (storedRoom room0.players pn room)
    let scores := Table.put s.scores (rid, pn)
      { roomId := rid, playerName := pn, GSI1SK := 0, clicks := 0, updatedAt := none }
    ({ conns := conns, rooms := rooms, scores := scores },
     { sends := broadcastToRoom conns rid
          (Message.playerJoined pn (JSObject.keys room.players) room.gameState)
          (some connectionId)
        ++ sendMessage connectionId
          (Message.joined rid pn (JSObject.keys room.players) room.gameState),
       timers := [] })
  | _, _ =>
    (s, { sends := sendMessage connectionId
            (Message.error "playerName and roomId are required"),
          timers := [] })

/-- The in-memory start of the game in `handleClick`: a waiting room becomes playing
with its start and end timestamps (two `Date.now()` readings); any other room is left
as loaded. -/
def startGame (tStarted tEnds : Nat) (room : Room) : Room :=
  if room.gameState = GameState.waiting then
    { room with gameState := GameState.playing, gameStartedAt := some tStarted,
                gameEndsAt := some (tEnds + room.gameDuration * 1000) }
  else room

/-- The timer `handleClick` arms in the same branch: `setTimeout(() => endGame(roomId),
room.gameDuration * 1000)`. -/
def startTimers (roomId : String) (room : Room) : List (String × Nat) :=
  if room.gameState = GameState.waiting then [(roomId, room.gameDuration * 1000)] else []

/-- The tail of `handleClick` once `room.players[playerName]` is truthy and its clicks
have been raised to `clicks`: save the room, save the leaderboard item, broadcast the
scores, confirm to the caller. -/
def registerClick (tUpdated tNow : Nat) (connectionId roomId playerName : String)
    (room : Room) (clicks : Nat) (timers : List (String × Nat)) (s : State) : State × Output :=
  ({ s with
      rooms := Table.put s.rooms roomId room,
      scores := Table.put s.scores (roomId, playerName)
        { roomId := roomId, playerName := playerName, GSI1SK := clicks, clicks := clicks,
          updatedAt := some tUpdated } },
   { sends := broadcastToRoom s.conns roomId
        (Message.scoreUpdate (rankScores room.players) (clickTimeRemaining room tNow)) none
      ++ sendMessage connectionId (Message.clickRegistered clicks),
     timers := timers })

/-- The handler `handleClick(connectionId, data)`. `tStarted`, `tEnds`, `tUpdated`, `tNow`
are its `Date.now()` readings in program order; `inheritedClicks` is the value of
`room.players[playerName].clicks || 0` when the read resolves to a function inherited
from `Object.prototype` instead of a player entry. When the read resolves to the
prototype object itself (the name `__proto__`), the increment writes
`Object.prototype.clicks`, the following `dynamodb.put` throws, nothing is stored and
the `catch` of `exports.handler` answers the caller with the exception's message; what
the written property does to later calls in the same process is not represented. -/
def handleClick (tStarted tEnds tUpdated tNow inheritedClicks : Nat)
    (connectionId roomId playerName : String) (s : State) : State × Output :=
  match Table.get s.rooms roomId with
  | none => (s, { sends := sendMessage connectionId (Message.error "Room not found"),
                  timers := [] })
  | some loaded =>
    let room := startGame tStarted tEnds loaded
    let timers := startTimers roomId loaded
    if room.gameState ≠ GameState.playing then
      (s, { sends := sendMessage connectionId (Message.error "Game is not active"),
            timers := timers })
    else
      match JSObject.get room.players playerName with
      | JSObject.Lookup.own p =>
        registerClick tUpdated tNow connectionId roomId playerName
          { room with players :=
              JSObject.replace room.players playerName ({ p with clicks := p.clicks + 1 }) }
          (p.clicks + 1) timers s
      | JSObject.Lookup.prototype =>
        (s, { sends := sendMessage connectionId Message.thrown, timers := timers })
      | JSObject.Lookup.inherited =>
        registerClick tUpdated tNow connectionId roomId playerName room
          (inheritedClicks + 1) timers s
      | JSObject.Lookup.absent =>
        (s, { sends := sendMessage connectionId (Message.error "Player not found in room"),
              timers := timers })

/-- Modelled from the spec: the index `LeaderboardIndex` is declared outside the source
files. Per the specification the Leaderboard Index answers a query for a room with its
items descending by score, at most `Limit` of them: here the items whose `roomId` is the
room, descending by the sort key `GSI1SK`, the first 10 (items with equal sort keys in
table order). -/
def queryLeaderboard (scores : List ((String × String) × ScoreItem)) (roomId : String) :
    List ScoreItem :=
  (arraySort (fun a b => (b.GSI1SK : Int) - (a.GSI1SK : Int))
    ((scores.filter (fun kv => decide (kv.2.roomId = roomId))).map Prod.snd)).take 10

/-- The handler `getLeaderboard(connectionId, data)`. -/
def getLeaderboard (connectionId roomId : String) (s : State) : State × Output :=
  (s, { sends := sendMessage connectionId
          (Message.leaderboard roomId
            ((queryLeaderboard s.scores roomId).map
              (fun item => { name := item.playerName, clicks := item.clicks }))),
        timers := [] })

/-- The handler `getRoomState(connectionId, data)`; `tNow` is its `Date.now()` reading. -/
def getRoomState (tNow : Nat) (connectionId roomId : String) (s : State) : State × Output :=
  match Table.get s.rooms roomId with
  | none => (s, { sends := sendMessage connectionId (Message.error "Room not found"),
                  timers := [] })
  | some room =>
    (s, { sends := sendMessage connectionId
            (Message.roomState roomId room.gameState (JSObject.keys room.players)
              (rankScores room.players) (roomStateTimeRemaining room tNow)),
          timers := [] })

/-- The timer callback `endGame(roomId)`. -/
def endGame (roomId : String) (s : State) : State × Output :=
  match Table.get s.rooms roomId with
  | none => (s, { sends := [], timers := [] })
  | some loaded =>
    if loaded.gameState = GameState.playing then
      let room := { loaded with gameState := GameState.ended }
      ({ s with rooms := Table.put s.rooms roomId room },
       { sends := broadcastToRoom s.conns roomId
            (Message.gameEnded (rankScores room.players) (rankScores room.players).head?) none,
         timers := [] })
    else (s, { sends := [], timers := [] })

/-! ## Sequential traces -/

/-- The actions of a trace: the four client actions dispatched by `exports.handler`, an
unrecognised action, and the firing of an expiry timer. -/
inductive Action where
  | join (connectionId : String) (playerName roomId : Option String)
  | click (connectionId roomId playerName : String)
  | getLeaderboard (connectionId roomId : String)
  | getRoomState (connectionId roomId : String)
  | unknown (connectionId : String)
  | endGame (roomId : String)
deriving DecidableEq, Repr

/-- What an action finds outside the table. The clock readings are one per `Date.now()`
of the handlers and are independent of each other: `created` and `joined` for
`createdAt` and `joinedAt` in `handleJoin`; `started`, `ends` and `updated` for
`gameStartedAt`, `gameEndsAt` and `updatedAt` in `handleClick`; `now` for the
`timeRemaining` computed by `handleClick` and `getRoomState`. `inheritedClicks` is the
clicks counter carried by the `Object.prototype` member a click may reach. -/
structure Env where
  created : Nat
  joined : Nat
  started : Nat
  ends : Nat
  updated : Nat
  now : Nat
  inheritedClicks : Nat
deriving DecidableEq, Repr

/-- One action of a sequential trace, run to completion with the clock readings of
`env`. -/
def step (env : Env) (a : Action) (s : State) : State × Output :=
  match a with
  | Action.join c pn rid => handleJoin env.created env.joined c pn rid s
  | Action.click c rid pn =>
    handleClick env.started env.ends env.updated env.now env.inheritedClicks c rid pn s
  | Action.getLeaderboard c rid => getLeaderboard c rid s
  | Action.getRoomState c rid => getRoomState env.now c rid s
  | Action.unknown c => (s, { sends := sendMessage c (Message.error "Unknown action"),
                              timers := [] })
  | Action.endGame rid => endGame rid s

/-- Run a trace from a state: the final state and the outputs of the actions in order. -/
def run : List (Env × Action) → State → State × List Output
  | [], s => (s, [])
  | (env, a) :: rest, s =>
    let r := step env a s
    let rs := run rest r.1
    (rs.1, r.2 :: rs.2)

/-- The table with the given connection records, no room and no leaderboard item. -/
def initial (conns : List (String × Connection)) : State :=
  { conns := conns, rooms := [], scores := [] }

/-! ## Vocabulary of the properties -/

/-- The fields of a room other than its players are the same in `r2` as in `r`. -/
def Room.sameFrame (r r2 : Room) : Prop :=
  r2.gameState = r.gameState ∧ r2.gameStartedAt = r.gameStartedAt ∧
  r2.gameEndsAt = r.gameEndsAt ∧ r2.gameDuration = r.gameDuration ∧
  r2.createdAt = r.createdAt ∧ r2.roomId = r.roomId

/-- Position of a game state along waiting, playing, ended. -/
def GameState.rank : GameState → Nat
  | GameState.waiting => 0
  | GameState.playing => 1
  | GameState.ended => 2

/-- Sample connection records: two live connections. -/
def sampleConns : List (String × Connection) :=
  [("c1", { connectionId := some "c1", playerName := none, roomId := none }),
   ("c2", { connectionId := some "c2", playerName := none, roomId := none })]

/-- An environment whose clock reads `t` at every reading, with no clicks counter on
inherited objects (a fresh process). -/
def envAt (t : Nat) : Env :=
  { created := t, joined := t, started := t, ends := t, updated := t, now := t,
    inheritedClicks := 0 }

/-- Sample state: alice and bob have joined room r1 and nobody has clicked. -/
def sampleWaiting : State :=
  (run [(envAt 100, Action.join "c1" (some "alice") (some "r1")),
        (envAt 200, Action.join "c2" (some "bob") (some "r1"))] (initial sampleConns)).1

/-- The room of `sampleWaiting`. -/
def sampleRoom : Room :=
  { roomId := "r1",
    players := [("alice", { name := "alice", clicks := 0, joinedAt := 100, connectionId := "c1" }),
                ("bob", { name := "bob", clicks := 0, joinedAt := 200, connectionId := "c2" })],
    gameState := GameState.waiting, createdAt := 100, gameDuration := 30,
    gameStartedAt := none, gameEndsAt := none }

/-- The player entry stored for `playerName` in the room `roomId`, if any. -/
def playerOf (s : State) (roomId playerName : String) : Option Player :=
  (Table.get s.rooms roomId).bind (fun r => JSObject.own r.players playerName)

/-- Whether the action is a join request naming `playerName` and `roomId`. -/
def Action.joinsAs (a : Action) (roomId playerName : String) : Bool :=
  match a with
  | Action.join _ pn rid => pn == some playerName && rid == some roomId
  | _ => false

/-- Sample state: in room r1 alice has clicked three times, bob has not clicked. -/
def samplePlaying : State :=
  (run [(envAt 1000, Action.click "c1" "r1" "alice"),
        (envAt 2000, Action.click "c1" "r1" "alice"),
        (envAt 3000, Action.click "c1" "r1" "alice")] sampleWaiting).1

/-- The entry of alice in `samplePlaying`. -/
def sampleAlice : Player :=
  { name := "alice", clicks := 3, joinedAt := 100, connectionId := "c1" }

/-- The room of `samplePlaying`. -/
def samplePlayingRoom : Room :=
  { roomId := "r1",
    players := [("alice", sampleAlice),
                ("bob", { name := "bob", clicks := 0, joinedAt := 200, connectionId := "c2" })],
    gameState := GameState.playing, createdAt := 100, gameDuration := 30,
    gameStartedAt := some 1000, gameEndsAt := some 31000 }

/-- What holds of every room the engine stores: each entry is filed under the name it
carries, no name occurs twice, the duration is 30 seconds, a waiting room has no start
and end timestamps, and a started room has both, the end being a clock reading plus 30
seconds. -/
def RoomInv (r : Room) : Prop :=
  (∀ kp ∈ r.players, kp.2.name = kp.1) ∧ (JSObject.keys r.players).Nodup ∧
  r.gameDuration = 30 ∧
  (r.gameState = GameState.waiting → r.gameStartedAt = none ∧ r.gameEndsAt = none) ∧
  (r.gameState ≠ GameState.waiting →
    ∃ ts te, r.gameStartedAt = some ts ∧ r.gameEndsAt = some (te + 30000))

/-- Every stored room satisfies `RoomInv`. -/
def StateInv (s : State) : Prop :=
  ∀ rid r, Table.get s.rooms rid = some r → RoomInv r

/-- The unsorted list the ranking starts from: one (name, clicks) entry per own property
of `players`, in enumeration order. -/
def scoreEntries (players : List (String × Player)) : List Score :=
  (JSObject.values players).map (fun p => { name := p.name, clicks := p.clicks })

/-- The order the comparator `(a, b) => b.clicks - a.clicks` asks for: `a` may stand
before `b`. -/
def Score.before (a b : Score) : Prop := (b.clicks : Int) - (a.clicks : Int) ≤ 0

instance Score.decidableBefore : DecidableRel Score.before :=
  fun a b => inferInstanceAs (Decidable ((b.clicks : Int) - (a.clicks : Int) ≤ 0))

/-- Whether a property name is neither an array index nor `__proto__`. -/
def plainName (k : String) : Bool := (JSObject.arrayIndex? k).isNone && k != "__proto__"

/-- The player name an action joins into `roomId`, when it is a join request with both
fields non-empty for that room. -/
def Action.joinedName (a : Action) (roomId : String) : Option String :=
  match a with
  | Action.join _ pn rid =>
    match truthy pn, truthy rid with
    | some p, some r => if r = roomId then some p else none
    | _, _ => none
  | _ => none

/-- The names joined into `roomId` along a trace, in the order of their first join,
continuing the list `acc` of names that joined earlier. -/
def joinOrderFrom (roomId : String) : List String → List (Env × Action) → List String
  | acc, [] => acc
  | acc, ea :: rest =>
    match ea.2.joinedName roomId with
    | some p => joinOrderFrom roomId (if p ∈ acc then acc else acc ++ [p]) rest
    | none => joinOrderFrom roomId acc rest

/-- The names joined into `roomId` along a trace, in the order of their first join. -/
def firstJoinOrder (trace : List (Env × Action)) (roomId : String) : List String :=
  joinOrderFrom roomId [] trace

/-- The player names of the room stored under `roomId`, in enumeration order; empty when
no room is stored. -/
def roomKeys (s : State) (roomId : String) : List String :=
  match Table.get s.rooms roomId with
  | some r => JSObject.keys r.players
  | none => []

/-- Whether the name an action joins into `roomId`, if any, is a plain name. -/
def Action.joinsPlain (a : Action) (roomId : String) : Bool :=
  match a.joinedName roomId with
  | some p => plainName p
  | none => true

/-- Sample trace: alice, then bob, join room r1. -/
def sampleJoins : List (Env × Action) :=
  [(envAt 100, Action.join "c1" (some "alice") (some "r1")),
   (envAt 200, Action.join "c2" (some "bob") (some "r1"))]

/-- Sample trace: the player named 10 joins room r1, then the player named 2. -/
def numericJoins : List (Env × Action) :=
  [(envAt 100, Action.join "c1" (some "10") (some "r1")),
   (envAt 200, Action.join "c2" (some "2") (some "r1"))]

/-- The remaining time as the specification words it: the rational number of seconds
from `now` to `gameEndsAt`, rounded up to a whole second and floored at 0. -/
def timeRemainingSpec (gameEndsAt now : Nat) : Int :=
  max 0 ⌈(((gameEndsAt : Int) - (now : Int) : Int) : ℚ) / 1000⌉

/-- Sample trace: alice and bob join room r1, then alice clicks three times (the trace
that leads to `samplePlaying`). -/
def sampleGame : List (Env × Action) :=
  sampleJoins ++
  [(envAt 1000, Action.click "c1" "r1" "alice"),
   (envAt 2000, Action.click "c1" "r1" "alice"),
   (envAt 3000, Action.click "c1" "r1" "alice")]

/-- An output without deliveries and timers. -/
def Output.none : Output := { sends := [], timers := [] }

/-- Sample trace: the players named 10 and 2 join room r1 in this order and each clicks
once, 10 first. -/
def numericGame : List (Env × Action) :=
  numericJoins ++
  [(envAt 1000, Action.click "c1" "r1" "10"),
   (envAt 2000, Action.click "c2" "r1" "2")]

/-- Sample trace: alice and bob join room r1 and each clicks once. -/
def sampleTie : List (Env × Action) :=
  sampleJoins ++
  [(envAt 1000, Action.click "c1" "r1" "alice"),
   (envAt 2000, Action.click "c2" "r1" "bob")]

/-- The room stored after `sampleTie`. -/
def sampleTieRoom : Room :=
  { roomId := "r1",
    players := [("alice", { name := "alice", clicks := 1, joinedAt := 100, connectionId := "c1" }),
                ("bob", { name := "bob", clicks := 1, joinedAt := 200, connectionId := "c2" })],
    gameState := GameState.playing, createdAt := 100, gameDuration := 30,
    gameStartedAt := some 1000, gameEndsAt := some 31000 }

/-- The connections bound to a room as a broadcast sees them: the `connectionId`
attributes of the connection records whose `roomId` is the room, in scan order. -/
def boundConnections (conns : List (String × Connection)) (roomId : String) : List String :=
  (conns.filter (fun kc => decide (kc.2.roomId = some roomId) && isRecipient none kc.2)).map
    (fun kc => kc.2.connectionId.getD "")

/-- The room `handleJoin` works on: the stored one, or a new one when none is stored. -/
def roomBefore (s : State) (roomId : String) (createdAt : Nat) : Room :=
  match Table.get s.rooms roomId with
  | some r => r
  | none => newRoom roomId createdAt

/-! ## Deliveries that can fail -/

/-- Outcome of an asynchronous call: the deliveries attempted while it ran, and whether
it resolved with a value or rejected with an error. -/
structure Async (α : Type) where
  attempts : List (String × Message)
  result : Except String α

/-- The value `sendMessage` resolves with. -/
structure Response where
  statusCode : Nat
  body : String
deriving DecidableEq, Repr

/-- The call `apigatewaymanagementapi.postToConnection(...).promise()`: the delivery is
attempted, and rejects for the connections of the failure pattern `failing`. -/
def postToConnection (failing : String → Bool) (connectionId : String) (data : Message) :
    Async Unit :=
  { attempts := [(connectionId, data)],
    result := if failing connectionId then Except.error "GoneException" else Except.ok () }

/-- The function `sendMessage` with its `try`/`catch`: it resolves with status 200 when
the delivery succeeded and with status 500 when it failed. Its attempts are those of
`sendMessage`. -/
def sendMessageAsync (failing : String → Bool) (connectionId : String) (data : Message) :
    Async Response :=
  match (postToConnection failing connectionId data).result with
  | Except.ok _ =>
    { attempts := (postToConnection failing connectionId data).attempts,
      result := Except.ok { statusCode := 200, body := "Message sent" } }
  | Except.error _ =>
    { attempts := (postToConnection failing connectionId data).attempts,
      result := Except.ok { statusCode := 500, body := "Failed to send message" } }

/-- The call `promise.catch(err => console.error(...))`: a rejection is logged and the
promise resolves with `undefined`. -/
def Async.catchLog {α : Type} (p : Async α) : Async (Option α) :=
  match p.result with
  | Except.ok v => { attempts := p.attempts, result := Except.ok (some v) }
  | Except.error _ => { attempts := p.attempts, result := Except.ok none }

/-- The results of a list of promises when all resolve, else the first rejection. -/
def allResults {α : Type} : List (Async α) → Except String (List α)
  | [] => Except.ok []
  | p :: ps =>
    match p.result with
    | Except.error e => Except.error e
    | Except.ok v =>
      match allResults ps with
      | Except.error e => Except.error e
      | Except.ok vs => Except.ok (v :: vs)

/-- The call `Promise.all(promises)` on promises that were all started when the array
was built: every attempt of every promise is made, whatever the others do. -/
def promiseAll {α : Type} (ps : List (Async α)) : Async (List α) :=
  { attempts := (ps.map Async.attempts).flatten, result := allResults ps }

/-- The promises `broadcastToRoom` builds: after the scan and filter of the connection
records, one `sendMessage(...).catch(...)` per remaining item. -/
def broadcastPromises (failing : String → Bool) (conns : List (String × Connection))
    (roomId : String) (data : Message) (excludeConnectionId : Option String) :
    List (Async (Option Response)) :=
  (conns.filter (fun kc =>
      decide (kc.2.roomId = some roomId) && isRecipient excludeConnectionId kc.2)).map
    (fun kc => (sendMessageAsync failing (kc.2.connectionId.getD "") data).catchLog)

/-- The function `broadcastToRoom` with its `try`/`catch` under a failure pattern:
`Promise.all` over `broadcastPromises`, a rejection of the whole being logged and
swallowed. -/
def broadcastToRoomAsync (failing : String → Bool) (conns : List (String × Connection))
    (roomId : String) (data : Message) (excludeConnectionId : Option String) : Async Unit :=
  { attempts :=
      (promiseAll (broadcastPromises failing conns roomId data excludeConnectionId)).attempts,
    result :=
      match (promiseAll
          (broadcastPromises failing conns roomId data excludeConnectionId)).result with
      | Except.ok _ => Except.ok ()
      | Except.error _ => Except.ok () }

/-- Sample failure pattern: every delivery to connection c2 fails. -/
def c2Fails (connectionId : String) : Bool := connectionId == "c2"

/-- Whether an action names no property of `Object.prototype` as its player. -/
def Action.avoidsPrototypeNames : Action → Bool
  | Action.join _ pn _ =>
    match pn with
    | some p => !(decide (p ∈ JSObject.objectPrototypeKeys))
    | none => true
  | Action.click _ _ pn => !(decide (pn ∈ JSObject.objectPrototypeKeys))
  | _ => true

/-- The leaderboard index mirrors the rooms: no key occurs twice, each item is filed
under its room and player with its sort key equal to its clicks, and a room and player
have a leaderboard item exactly when the room has an entry for the player, with the same
click count. -/
def ScoresInv (s : State) : Prop :=
  (s.scores.map Prod.fst).Nodup ∧
  (∀ k item, Table.get s.scores k = some item →
    item.roomId = k.1 ∧ item.playerName = k.2 ∧ item.GSI1SK = item.clicks) ∧
  (∀ rid name, (Table.get s.scores (rid, name)).map ScoreItem.clicks =
    (playerOf s rid name).map Player.clicks)

/-- The leaderboard items of a room, in table order: what the index holds under the
partition key of the room. -/
def roomItems (scores : List ((String × String) × ScoreItem)) (roomId : String) :
    List ScoreItem :=
  (scores.filter (fun kv => decide (kv.2.roomId = roomId))).map Prod.snd

/-- The list `getLeaderboard` sends for a room. -/
def leaderboardOf (s : State) (roomId : String) : List Score :=
  (queryLeaderboard s.scores roomId).map
    (fun item => { name := item.playerName, clicks := item.clicks })

/-- Sample trace: alice joins room r1, then a click arrives under the name constructor,
which has no entry in the room. -/
def strayLeaderboardTrace : List (Env × Action) :=
  [(envAt 100, Action.join "c1" (some "alice") (some "r1")),
   (envAt 1000, Action.click "c1" "r1" "constructor")]

/-- Sample environment of a click during which the clock ticks: the reading for
`gameStartedAt` is 1000, every later reading of the handler is 1001. -/
def tickingClock : Env :=
  { created := 1000, joined := 1000, started := 1000, ends := 1001, updated := 1001,
    now := 1001, inheritedClicks := 0 }

/-- Sample trace: alice and bob join room r1, then alice starts the game with a click
during which the clock ticks from 1000 to 1001. -/
def tickingGame : List (Env × Action) :=
  sampleJoins ++ [(tickingClock, Action.click "c1" "r1" "alice")]

/-- The players map of the room stored under `roomId`, if there is one, holds player
entries only: no join under `__proto__` has added foreign entries to it. -/
def PlayersOnly (s : State) (roomId : String) : Prop :=
  ∀ r ∈ Table.get s.rooms roomId, r.foreignEntries = false

instance PlayersOnly.decidable (s : State) (roomId : String) :
    Decidable (PlayersOnly s roomId) := by
  unfold PlayersOnly
  infer_instance

/-- Whether an action is a join into `roomId` under the name `__proto__`. -/
def Action.joinsProto (a : Action) (roomId : String) : Bool :=
  a.joinedName roomId == some "__proto__"

/-- The `timeRemaining` field of a `roomState` message. -/
def Message.roomStateTime : Message → Option Int
  | Message.roomState _ _ _ _ tr => some tr
  | _ => none

/-! # Properties -/

/-! ## Facts about the stored form of a room -/

@[simp] theorem storedRoom_players (b : List (String × Player)) (pn : String) (room : Room) :
    (storedRoom b pn room).players = room.players := by
  unfold storedRoom; split <;> rfl

@[simp] theorem storedRoom_gameState (b : List (String × Player)) (pn : String) (room : Room) :
    (storedRoom b pn room).gameState = room.gameState := by
  unfold storedRoom; split <;> rfl

@[simp] theorem storedRoom_gameStartedAt (b : List (String × Player)) (pn : String)
    (room : Room) : (storedRoom b pn room).gameStartedAt = room.gameStartedAt := by
  unfold storedRoom; split <;> rfl

@[simp] theorem storedRoom_gameEndsAt (b : List (String × Player)) (pn : String) (room : Room) :
    (storedRoom b pn room).gameEndsAt = room.gameEndsAt := by
  unfold storedRoom; split <;> rfl

@[simp] theorem storedRoom_gameDuration (b : List (String × Player)) (pn : String)
    (room : Room) : (storedRoom b pn room).gameDuration = room.gameDuration := by
  unfold storedRoom; split <;> rfl

@[simp] theorem storedRoom_createdAt (b : List (String × Player)) (pn : String) (room : Room) :
    (storedRoom b pn room).createdAt = room.createdAt := by
  unfold storedRoom; split <;> rfl

@[simp] theorem storedRoom_roomId (b : List (String × Player)) (pn : String) (room : Room) :
    (storedRoom b pn room).roomId = room.roomId := by
  unfold storedRoom; split <;> rfl

/-- A join under a name other than `__proto__` stores the in-memory room. -/
theorem storedRoom_of_ne (b : List (String × Player)) {pn : String} (room : Room)
    (h : pn ≠ "__proto__") : storedRoom b pn room = room := by
  simp [storedRoom, h]

/-- A join under a name that is an own property stores the in-memory room. -/
theorem storedRoom_of_own {b : List (String × Player)} {pn : String} {v : Player} (room : Room)
    (h : JSObject.own b pn = some v) : storedRoom b pn room = room := by
  simp [storedRoom, h]

/-! ## Facts about the keyed stores -/

namespace Table

theorem get_put {κ α : Type} [DecidableEq κ] (t : List (κ × α)) (k q : κ) (v : α) :
    get (put t k v) q = if k = q then some v else get t q := by
  induction t with
  | nil => simp [put, get]
  | cons hd tl ih =>
    obtain ⟨k0, v0⟩ := hd
    by_cases h0 : k0 = k
    · subst h0
      by_cases hq : k0 = q <;> simp [put, get, hq]
    · by_cases hq : k = q
      · subst hq
        simp [put, get, h0, ih]
      · simp [put, get, h0, ih, hq]

theorem get_put_self {κ α : Type} [DecidableEq κ] (t : List (κ × α)) (k : κ) (v : α) :
    get (put t k v) k = some v := by
  simp [get_put]

theorem get_put_of_ne {κ α : Type} [DecidableEq κ] (t : List (κ × α)) {k q : κ} (v : α)
    (h : k ≠ q) : get (put t k v) q = get t q := by
  simp [get_put, h]

end Table

theorem handleJoin_room_frame (tc tj : Nat) (c : String) (pn rid0 : Option String) (s : State)
    (rid : String) (r : Room) (h : Table.get s.rooms rid = some r) :
    ∃ r2, Table.get (handleJoin tc tj c pn rid0 s).1.rooms rid = some r2 ∧ r.sameFrame r2 := by
  unfold handleJoin
  split
  · rename_i p q hp hq
    by_cases hk : q = rid
    · subst hk
      simp [Table.get_put, h, Room.sameFrame]
    · simp [Table.get_put, hk, h, Room.sameFrame]
  · exact ⟨r, h, by simp [Room.sameFrame]⟩

theorem handleClick_room_frame (ts te tu tn inh : Nat) (c rid0 pn : String) (s : State)
    (rid : String) (r : Room) (h : Table.get s.rooms rid = some r) :
    ∃ r2, Table.get (handleClick ts te tu tn inh c rid0 pn s).1.rooms rid = some r2 ∧
      (r.sameFrame r2 ∨
        (rid0 = rid ∧ r.gameState = GameState.waiting ∧ (startGame ts te r).sameFrame r2)) := by
  by_cases hk : rid0 = rid
  · subst hk
    unfold handleClick
    rw [h]
    by_cases hw : r.gameState = GameState.waiting
    · have hs : (startGame ts te r).gameState = GameState.playing := by simp [startGame, hw]
      simp only [hs, ne_eq, not_true_eq_false, if_false]
      cases hg : JSObject.get (startGame ts te r).players pn with
      | own p =>
        simp only [registerClick, Table.get_put_self]
        exact ⟨_, rfl, Or.inr ⟨trivial, hw, by simp [Room.sameFrame, hs]⟩⟩
      | prototype => exact ⟨r, h, Or.inl (by simp [Room.sameFrame])⟩
      | inherited =>
        simp only [registerClick, Table.get_put_self]
        exact ⟨_, rfl, Or.inr ⟨trivial, hw, by simp [Room.sameFrame, hs]⟩⟩
      | absent => exact ⟨r, h, Or.inl (by simp [Room.sameFrame])⟩
    · have hs : startGame ts te r = r := by simp [startGame, hw]
      simp only [hs]
      by_cases hp : r.gameState = GameState.playing
      · simp only [hp, ne_eq, not_true_eq_false, if_false]
        cases hg : JSObject.get r.players pn with
        | own p =>
          simp only [registerClick, Table.get_put_self]
          exact ⟨_, rfl, Or.inl (by simp [Room.sameFrame, hp])⟩
        | prototype => exact ⟨r, h, Or.inl (by simp [Room.sameFrame])⟩
        | inherited =>
          simp only [registerClick, Table.get_put_self]
          exact ⟨_, rfl, Or.inl (by simp [Room.sameFrame])⟩
        | absent => exact ⟨r, h, Or.inl (by simp [Room.sameFrame])⟩
      · simp only [ne_eq, hp, not_false_eq_true, if_true]
        exact ⟨r, h, Or.inl (by simp [Room.sameFrame])⟩
  · refine ⟨r, ?_, Or.inl (by simp [Room.sameFrame])⟩
    unfold handleClick
    cases hl : Table.get s.rooms rid0 with
    | none => simpa using h
    | some loaded =>
      simp only
      split
      · exact h
      · split
        · simp [registerClick, Table.get_put, hk, h]
        · exact h
        · simp [registerClick, Table.get_put, hk, h]
        · exact h

theorem endGame_room_frame (rid0 : String) (s : State)
    (rid : String) (r : Room) (h : Table.get s.rooms rid = some r) :
    ∃ r2, Table.get (endGame rid0 s).1.rooms rid = some r2 ∧
      (r2 = r ∨ (rid0 = rid ∧ r.gameState = GameState.playing ∧
        r2 = { r with gameState := GameState.ended })) := by
  by_cases hk : rid0 = rid
  · subst hk
    unfold endGame
    rw [h]
    by_cases hp : r.gameState = GameState.playing
    · simp only [hp, if_true, Table.get_put_self]
      exact ⟨_, rfl, Or.inr ⟨trivial, trivial, rfl⟩⟩
    · simp only [hp, if_false]
      exact ⟨r, h, Or.inl rfl⟩
  · refine ⟨r, ?_, Or.inl rfl⟩
    unfold endGame
    cases hl : Table.get s.rooms rid0 with
    | none => simpa using h
    | some loaded =>
      simp only
      split
      · simp [Table.get_put, hk, h]
      · exact h

theorem Room.sameFrame_refl (r : Room) : r.sameFrame r := by simp [Room.sameFrame]

/-- Effect of one action on the non-player fields of a stored room: they stay as they
are, or a click starts the game, or the timer callback ends it. -/
theorem step_room_frame (env : Env) (a : Action) (s : State) (rid : String) (r : Room)
    (h : Table.get s.rooms rid = some r) :
    ∃ r2, Table.get (step env a s).1.rooms rid = some r2 ∧
      (r.sameFrame r2 ∨
       ((∃ c pn, a = Action.click c rid pn) ∧ r.gameState = GameState.waiting ∧
          (startGame env.started env.ends r).sameFrame r2) ∨
       (a = Action.endGame rid ∧ r.gameState = GameState.playing ∧
          r2 = { r with gameState := GameState.ended })) := by
  cases a with
  | join c pn rid0 =>
    obtain ⟨r2, h2, hf⟩ := handleJoin_room_frame env.created env.joined c pn rid0 s rid r h
    exact ⟨r2, h2, Or.inl hf⟩
  | click c rid0 pn =>
    obtain ⟨r2, h2, hf⟩ :=
      handleClick_room_frame env.started env.ends env.updated env.now env.inheritedClicks c rid0 pn s rid r h
    refine ⟨r2, h2, ?_⟩
    rcases hf with hf | ⟨hk, hw, hf⟩
    · exact Or.inl hf
    · subst hk
      exact Or.inr (Or.inl ⟨⟨c, pn, rfl⟩, hw, hf⟩)
  | getLeaderboard c rid0 => exact ⟨r, h, Or.inl r.sameFrame_refl⟩
  | getRoomState c rid0 =>
    refine ⟨r, ?_, Or.inl r.sameFrame_refl⟩
    simp only [step, getRoomState]
    split <;> exact h
  | unknown c => exact ⟨r, h, Or.inl r.sameFrame_refl⟩
  | endGame rid0 =>
    obtain ⟨r2, h2, hf⟩ := endGame_room_frame rid0 s rid r h
    refine ⟨r2, h2, ?_⟩
    rcases hf with hf | ⟨hk, hp, hf⟩
    · exact Or.inl (by rw [hf]; exact r.sameFrame_refl)
    · subst hk
      exact Or.inr (Or.inr ⟨rfl, hp, hf⟩)

/-- One action moves the game state of a stored room by at most one step forward. -/
theorem step_gameState (env : Env) (a : Action) (s : State) (rid : String) (r : Room)
    (h : Table.get s.rooms rid = some r) :
    ∃ r2, Table.get (step env a s).1.rooms rid = some r2 ∧
      (r2.gameState = r.gameState ∨
       (r.gameState = GameState.waiting ∧ r2.gameState = GameState.playing) ∨
       (r.gameState = GameState.playing ∧ r2.gameState = GameState.ended)) := by
  obtain ⟨r2, h2, hf⟩ := step_room_frame env a s rid r h
  refine ⟨r2, h2, ?_⟩
  rcases hf with hf | ⟨-, hw, hf⟩ | ⟨-, hp, hf⟩
  · exact Or.inl hf.1
  · refine Or.inr (Or.inl ⟨hw, ?_⟩)
    rw [hf.1]
    simp [startGame, hw]
  · exact Or.inr (Or.inr ⟨hp, by rw [hf]⟩)

/-- Along a trace the game state of a stored room never moves backward. -/
theorem run_gameState_rank (trace : List (Env × Action)) :
    ∀ (s : State) (rid : String) (r : Room), Table.get s.rooms rid = some r →
      ∃ r2, Table.get (run trace s).1.rooms rid = some r2 ∧
        r.gameState.rank ≤ r2.gameState.rank := by
  induction trace with
  | nil => intro s rid r h; exact ⟨r, h, le_refl _⟩
  | cons ea rest ih =>
    intro s rid r h
    obtain ⟨env, a⟩ := ea
    obtain ⟨r1, h1, hf⟩ := step_gameState env a s rid r h
    obtain ⟨r2, h2, hle⟩ := ih (step env a s).1 rid r1 h1
    refine ⟨r2, h2, le_trans ?_ hle⟩
    rcases hf with hf | ⟨hw, hp⟩ | ⟨hp, he⟩
    · rw [hf]
    · rw [hw, hp]; decide
    · rw [hp, he]; decide

/-- C1. Each action of a sequential trace (join, click, getLeaderboard, getRoomState, an
unrecognised action, the timer callback endGame) leaves the game state of a stored room
unchanged or moves it exactly one step along waiting, playing, ended; the room stays
stored, and over a whole trace its state never moves backward. -/
theorem gameState_moves_forward (s : State) (rid : String) (r : Room)
    (h : Table.get s.rooms rid = some r) :
    (∀ (env : Env) (a : Action), ∃ r2, Table.get (step env a s).1.rooms rid = some r2 ∧
      (r2.gameState = r.gameState ∨
       (r.gameState = GameState.waiting ∧ r2.gameState = GameState.playing) ∨
       (r.gameState = GameState.playing ∧ r2.gameState = GameState.ended))) ∧
    (∀ trace : List (Env × Action), ∃ r2, Table.get (run trace s).1.rooms rid = some r2 ∧
      r.gameState.rank ≤ r2.gameState.rank) :=
  ⟨fun env a => step_gameState env a s rid r h, fun trace => run_gameState_rank trace s rid r h⟩

theorem sampleWaiting_room : Table.get sampleWaiting.rooms "r1" = some sampleRoom := by decide

/-- C1 at the sample room: the theorem applies to a stored waiting room. -/
theorem gameState_moves_forward_witness :
    Table.get sampleWaiting.rooms "r1" = some sampleRoom ∧
    ((∀ (env : Env) (a : Action), ∃ r2,
        Table.get (step env a sampleWaiting).1.rooms "r1" = some r2 ∧
        (r2.gameState = sampleRoom.gameState ∨
         (sampleRoom.gameState = GameState.waiting ∧ r2.gameState = GameState.playing) ∨
         (sampleRoom.gameState = GameState.playing ∧ r2.gameState = GameState.ended))) ∧
     (∀ trace : List (Env × Action), ∃ r2,
        Table.get (run trace sampleWaiting).1.rooms "r1" = some r2 ∧
        sampleRoom.gameState.rank ≤ r2.gameState.rank)) :=
  ⟨by decide, gameState_moves_forward sampleWaiting "r1" sampleRoom (by decide)⟩

/-! ## Facts about objects -/

namespace JSObject

theorem own_replace {α : Type} (o : List (String × α)) (k q : String) (v : α) :
    own (replace o k v) q = if k = q then (own o k).map (fun _ => v) else own o q := by
  induction o with
  | nil => simp [replace, own]
  | cons hd tl ih =>
    obtain ⟨k0, v0⟩ := hd
    by_cases h0 : k0 = k
    · subst h0
      by_cases hq : k0 = q <;> simp [replace, own, hq]
    · by_cases hq : k = q
      · subst hq
        simp [replace, own, h0, ih]
      · by_cases h1 : k0 = q
        · subst h1
          simp [replace, own, h0, hq]
        · simp [replace, own, h0, ih, hq, h1]

theorem keys_replace {α : Type} (o : List (String × α)) (k : String) (v : α) :
    keys (replace o k v) = keys o := by
  induction o with
  | nil => simp [replace, keys]
  | cons hd tl ih =>
    obtain ⟨k0, v0⟩ := hd
    by_cases h0 : k0 = k
    · simp [replace, keys, h0]
    · simp only [keys] at ih
      simp [replace, keys, h0, ih]

theorem own_insertIndex_of_ne {α : Type} (o : List (String × α)) (n : Nat) {k q : String}
    (v : α) (h : k ≠ q) : own (insertIndex o n k v) q = own o q := by
  induction o with
  | nil => simp [insertIndex, own, h]
  | cons hd tl ih =>
    obtain ⟨k0, v0⟩ := hd
    simp only [insertIndex]
    split
    · split
      · simp [own, ih]
      · simp [own, h]
    · simp [own, h]

theorem own_append_of_ne {α : Type} (o : List (String × α)) {k q : String}
    (v : α) (h : k ≠ q) : own (o ++ [(k, v)]) q = own o q := by
  induction o with
  | nil => simp [own, h]
  | cons hd tl ih =>
    obtain ⟨k0, v0⟩ := hd
    simp [own, ih]

/-- An assignment to the key `k` leaves the own property of any other key as it was. -/
theorem own_set_of_ne {α : Type} (o : List (String × α)) {k q : String} (v : α)
    (h : k ≠ q) : own (set o k v) q = own o q := by
  unfold set
  split
  · simp [own_replace, h]
  · split
    · rfl
    · split
      · exact own_insertIndex_of_ne o _ v h
      · exact own_append_of_ne o v h

/-- An assignment to a key that is an own property overwrites its value in place. -/
theorem set_of_own {α : Type} (o : List (String × α)) {k : String} {v0 : α} (v : α)
    (h : own o k = some v0) : set o k v = replace o k v := by
  simp [set, h]

end JSObject

theorem truthy_some {v : String} (h : v ≠ "") : truthy (some v) = some v := by
  simp [truthy, h]

theorem truthy_eq_some {f : Option String} {v : String} (h : truthy f = some v) :
    f = some v ∧ v ≠ "" := by
  unfold truthy at h
  split at h
  · split at h
    · exact absurd h (by simp)
    · rename_i w hw
      simp only [Option.some.injEq] at h
      subst h
      exact ⟨rfl, hw⟩
  · exact absurd h (by simp)

theorem startGame_players (ts te : Nat) (r : Room) : (startGame ts te r).players = r.players := by
  unfold startGame
  split <;> rfl

theorem get_own_iff {o : List (String × Player)} {k : String} {p : Player} :
    JSObject.get o k = JSObject.Lookup.own p ↔ JSObject.own o k = some p := by
  unfold JSObject.get
  split
  · rename_i v hv
    simp [hv]
  · rename_i hv
    split
    · simp [hv]
    · split <;> simp [hv]

/-- A read resolves to a function inherited from `Object.prototype` only for one of its
property names. -/
theorem get_inherited {o : List (String × Player)} {k : String}
    (h : JSObject.get o k = JSObject.Lookup.inherited) : k ∈ JSObject.objectPrototypeKeys := by
  unfold JSObject.get at h
  split at h
  · exact absurd h (by simp)
  · split at h
    · exact absurd h (by simp)
    · split at h
      · assumption
      · exact absurd h (by simp)

/-- A read resolves to the prototype object only for the name `__proto__`. -/
theorem get_prototype {o : List (String × Player)} {k : String}
    (h : JSObject.get o k = JSObject.Lookup.prototype) : k = "__proto__" := by
  unfold JSObject.get at h
  split at h
  · exact absurd h (by simp)
  · split at h
    · assumption
    · split at h <;> exact absurd h (by simp)

/-- The players of a stored room after `handleJoin`: untouched, or the joining player's
entry assigned afresh. -/
theorem handleJoin_players (tc tj : Nat) (c : String) (pn0 rid0 : Option String) (s : State)
    (rid : String) (r : Room) (h : Table.get s.rooms rid = some r) :
    ∃ r2, Table.get (handleJoin tc tj c pn0 rid0 s).1.rooms rid = some r2 ∧
      (r2.players = r.players ∨
        ∃ pn, pn0 = some pn ∧ rid0 = some rid ∧ pn ≠ "" ∧ rid ≠ "" ∧
          r2.players = JSObject.set r.players pn
            { name := pn, clicks := 0, joinedAt := tj, connectionId := c }) := by
  unfold handleJoin
  split
  · rename_i p q hp hq
    obtain ⟨hp1, hp2⟩ := truthy_eq_some hp
    obtain ⟨hq1, hq2⟩ := truthy_eq_some hq
    by_cases hk : q = rid
    · subst hk
      simp only [Table.get_put_self, h]
      exact ⟨_, rfl, Or.inr ⟨p, hp1, hq1, hp2, hq2, storedRoom_players _ _ _⟩⟩
    · simp only [Table.get_put_of_ne _ _ hk]
      exact ⟨r, h, Or.inl rfl⟩
  · exact ⟨r, h, Or.inl rfl⟩

/-- The players of a stored room after `handleClick`: untouched, or the clicking
player's count raised by one in place. -/
theorem handleClick_players (ts te tu tn inh : Nat) (c rid0 pn : String) (s : State)
    (rid : String) (r : Room) (h : Table.get s.rooms rid = some r) :
    ∃ r2, Table.get (handleClick ts te tu tn inh c rid0 pn s).1.rooms rid = some r2 ∧
      (r2.players = r.players ∨
        ∃ p, rid0 = rid ∧ r.gameState ≠ GameState.ended ∧ JSObject.own r.players pn = some p ∧
          r2.players = JSObject.replace r.players pn ({ p with clicks := p.clicks + 1 })) := by
  by_cases hk : rid0 = rid
  · subst hk
    unfold handleClick
    rw [h]
    simp only
    split
    · exact ⟨r, h, Or.inl rfl⟩
    · rename_i hplay
      simp only [ne_eq, not_not] at hplay
      have hne : r.gameState ≠ GameState.ended := by
        intro he
        simp [startGame, he] at hplay
      split
      · rename_i p hg
        simp only [registerClick, Table.get_put_self]
        refine ⟨_, rfl, Or.inr ⟨p, trivial, hne, ?_, ?_⟩⟩
        · rw [startGame_players] at hg
          exact get_own_iff.1 hg
        · simp [startGame_players]
      · exact ⟨r, h, Or.inl rfl⟩
      · simp only [registerClick, Table.get_put_self]
        exact ⟨_, rfl, Or.inl (startGame_players ts te r)⟩
      · exact ⟨r, h, Or.inl rfl⟩
  · obtain ⟨r2, h2, hf⟩ := handleClick_room_frame ts te tu tn inh c rid0 pn s rid r h
    refine ⟨r, ?_, Or.inl rfl⟩
    unfold handleClick
    cases hl : Table.get s.rooms rid0 with
    | none => simpa using h
    | some loaded =>
      simp only
      split
      · exact h
      · split
        · simp [registerClick, Table.get_put, hk, h]
        · exact h
        · simp [registerClick, Table.get_put, hk, h]
        · exact h

/-- An action other than a join of `pn` into the room keeps the entry of `pn` and does
not lower its click count. -/
theorem step_clicks_mono (env : Env) (a : Action) (s : State) (rid pn : String) (r : Room)
    (p : Player) (h : Table.get s.rooms rid = some r) (hp : JSObject.own r.players pn = some p)
    (hj : a.joinsAs rid pn = false) :
    ∃ r2 p2, Table.get (step env a s).1.rooms rid = some r2 ∧
      JSObject.own r2.players pn = some p2 ∧ p.clicks ≤ p2.clicks := by
  cases a with
  | join c pn0 rid0 =>
    obtain ⟨r2, h2, hf⟩ := handleJoin_players env.created env.joined c pn0 rid0 s rid r h
    rcases hf with hf | ⟨q, hq, hr, -, -, hf⟩
    · exact ⟨r2, p, h2, by rw [hf]; exact hp, le_refl _⟩
    · have hne : q ≠ pn := by
        intro he
        subst he
        simp [Action.joinsAs, hq, hr] at hj
      exact ⟨r2, p, h2, by rw [hf, JSObject.own_set_of_ne _ _ hne]; exact hp, le_refl _⟩
  | click c rid0 pn0 =>
    obtain ⟨r2, h2, hf⟩ :=
      handleClick_players env.started env.ends env.updated env.now env.inheritedClicks c rid0 pn0 s rid r h
    rcases hf with hf | ⟨q, -, -, hq, hf⟩
    · exact ⟨r2, p, h2, by rw [hf]; exact hp, le_refl _⟩
    · by_cases he : pn0 = pn
      · subst he
        rw [hp] at hq
        simp only [Option.some.injEq] at hq
        subst hq
        exact ⟨r2, { p with clicks := p.clicks + 1 }, h2,
          by rw [hf, JSObject.own_replace, hp]; simp, Nat.le_succ _⟩
      · exact ⟨r2, p, h2, by rw [hf, JSObject.own_replace]; simp [he, hp], le_refl _⟩
  | getLeaderboard c rid0 => exact ⟨r, p, h, hp, le_refl _⟩
  | getRoomState c rid0 =>
    refine ⟨r, p, ?_, hp, le_refl _⟩
    simp only [step, getRoomState]
    split <;> exact h
  | unknown c => exact ⟨r, p, h, hp, le_refl _⟩
  | endGame rid0 =>
    obtain ⟨r2, h2, hf⟩ := endGame_room_frame rid0 s rid r h
    rcases hf with hf | ⟨-, -, hf⟩
    · exact ⟨r2, p, h2, by rw [hf]; exact hp, le_refl _⟩
    · exact ⟨r2, p, h2, by rw [hf]; exact hp, le_refl _⟩

/-- Along a trace without a join of `pn` into the room, the click count of `pn` never
decreases. -/
theorem run_clicks_mono (trace : List (Env × Action)) :
    ∀ (s : State) (rid pn : String) (r : Room) (p : Player),
      Table.get s.rooms rid = some r → JSObject.own r.players pn = some p →
      (∀ ea ∈ trace, ea.2.joinsAs rid pn = false) →
      ∃ r2 p2, Table.get (run trace s).1.rooms rid = some r2 ∧
        JSObject.own r2.players pn = some p2 ∧ p.clicks ≤ p2.clicks := by
  induction trace with
  | nil => intro s rid pn r p h hp _; exact ⟨r, p, h, hp, le_refl _⟩
  | cons ea rest ih =>
    intro s rid pn r p h hp hj
    obtain ⟨env, a⟩ := ea
    obtain ⟨r1, p1, h1, hp1, hle1⟩ :=
      step_clicks_mono env a s rid pn r p h hp (hj (env, a) (List.mem_cons_self _ _))
    obtain ⟨r2, p2, h2, hp2, hle2⟩ := ih (step env a s).1 rid pn r1 p1 h1 hp1
      (fun ea hea => hj ea (List.mem_cons_of_mem _ hea))
    exact ⟨r2, p2, h2, hp2, le_trans hle1 hle2⟩

/-- C2, as the code has it. For a stored room and a player name with an entry in it, a
join under that name overwrites the entry in place: clicks are reset to 0, the join
timestamp is the time of this join and the connection is the joining one; the order of
the player names, the entries of the other players and the other fields of the room stay
as they were. Along a trace without a join under that name into the room, the click
count of the player never decreases. -/
theorem join_overwrites_player_entry (s : State) (rid pn : String) (r : Room) (p : Player)
    (h : Table.get s.rooms rid = some r) (hp : JSObject.own r.players pn = some p) :
    (∀ (tc tj : Nat) (c : String), pn ≠ "" → rid ≠ "" →
      ∃ r2, Table.get (handleJoin tc tj c (some pn) (some rid) s).1.rooms rid = some r2 ∧
        JSObject.own r2.players pn =
          some { name := pn, clicks := 0, joinedAt := tj, connectionId := c } ∧
        JSObject.keys r2.players = JSObject.keys r.players ∧
        (∀ q, q ≠ pn → JSObject.own r2.players q = JSObject.own r.players q) ∧
        r.sameFrame r2) ∧
    (∀ trace : List (Env × Action), (∀ ea ∈ trace, ea.2.joinsAs rid pn = false) →
      ∃ r2 p2, Table.get (run trace s).1.rooms rid = some r2 ∧
        JSObject.own r2.players pn = some p2 ∧ p.clicks ≤ p2.clicks) := by
  refine ⟨?_, fun trace hj => run_clicks_mono trace s rid pn r p h hp hj⟩
  intro tc tj c hpn hrid
  obtain ⟨r2, h2, hf⟩ := handleJoin_room_frame tc tj c (some pn) (some rid) s rid r h
  obtain ⟨r3, h3, hpl⟩ := handleJoin_players tc tj c (some pn) (some rid) s rid r h
  rw [h2] at h3
  simp only [Option.some.injEq] at h3
  subst h3
  have hset : r2.players = JSObject.replace r.players pn
      { name := pn, clicks := 0, joinedAt := tj, connectionId := c } := by
    unfold handleJoin at h2
    simp only [truthy_some hpn, truthy_some hrid, h, Table.get_put_self,
      Option.some.injEq] at h2
    rw [← h2, storedRoom_players]
    exact JSObject.set_of_own _ _ hp
  refine ⟨r2, h2, ?_, ?_, ?_, hf⟩
  · rw [hset, JSObject.own_replace, hp]; simp
  · rw [hset, JSObject.keys_replace]
  · intro q hq
    rw [hset, JSObject.own_replace]
    simp [Ne.symm hq]

/-- C2 fails as stated. In room r1 alice has 3 clicks and joined at time 100; when she
joins again at time 5000 on connection c2, her stored entry has 0 clicks and join time
5000: the join changed more than the bound connection, and her click count decreased. -/
theorem join_existing_player_resets_clicks :
    playerOf samplePlaying "r1" "alice" =
      some { name := "alice", clicks := 3, joinedAt := 100, connectionId := "c1" } ∧
    playerOf (step (envAt 5000) (Action.join "c2" (some "alice") (some "r1")) samplePlaying).1
        "r1" "alice" =
      some { name := "alice", clicks := 0, joinedAt := 5000, connectionId := "c2" } := by
  decide

/-- C2 as amended, at the sample room: alice joins again, and a trace of clicks follows. -/
theorem join_overwrites_player_entry_witness :
    Table.get samplePlaying.rooms "r1" = some samplePlayingRoom ∧
    JSObject.own samplePlayingRoom.players "alice" = some sampleAlice ∧
    (∃ r2, Table.get (handleJoin 5000 5000 "c2" (some "alice") (some "r1")
          samplePlaying).1.rooms "r1" = some r2 ∧
        JSObject.own r2.players "alice" =
          some { name := "alice", clicks := 0, joinedAt := 5000, connectionId := "c2" } ∧
        JSObject.keys r2.players = JSObject.keys samplePlayingRoom.players ∧
        (∀ q, q ≠ "alice" →
          JSObject.own r2.players q = JSObject.own samplePlayingRoom.players q) ∧
        samplePlayingRoom.sameFrame r2) ∧
    (∃ r2 p2, Table.get (run [(envAt 4000, Action.click "c2" "r1" "bob"),
          (envAt 4500, Action.join "c2" (some "bob") (some "r1")),
          (envAt 4600, Action.click "c1" "r1" "alice")] samplePlaying).1.rooms "r1" = some r2 ∧
        JSObject.own r2.players "alice" = some p2 ∧ sampleAlice.clicks ≤ p2.clicks) :=
  have H := join_overwrites_player_entry samplePlaying "r1" "alice" samplePlayingRoom
    sampleAlice (by decide) (by decide)
  ⟨by decide, by decide, H.1 5000 5000 "c2" (by decide) (by decide), H.2 _ (by decide)⟩

namespace JSObject

theorem own_eq_none_iff {α : Type} (o : List (String × α)) (k : String) :
    own o k = none ↔ k ∉ keys o := by
  induction o with
  | nil => simp [own, keys]
  | cons hd tl ih =>
    obtain ⟨k0, v0⟩ := hd
    by_cases h0 : k0 = k
    · simp [own, keys, h0]
    · simp only [keys] at ih
      simp [own, keys, h0, ih, Ne.symm h0]

theorem mem_of_own {α : Type} {o : List (String × α)} {k : String} {v : α}
    (h : own o k = some v) : (k, v) ∈ o := by
  induction o with
  | nil => simp [own] at h
  | cons hd tl ih =>
    obtain ⟨k0, v0⟩ := hd
    by_cases h0 : k0 = k
    · simp only [own, h0, if_true, Option.some.injEq] at h
      simp [h0, h]
    · simp only [own, h0, if_false] at h
      exact List.mem_cons_of_mem _ (ih h)

theorem mem_replace {α : Type} {o : List (String × α)} {k : String} {v : α} {x : String × α}
    (h : x ∈ replace o k v) : x ∈ o ∨ x = (k, v) := by
  induction o with
  | nil => simp [replace] at h
  | cons hd tl ih =>
    obtain ⟨k0, v0⟩ := hd
    by_cases h0 : k0 = k
    · simp only [replace, h0, if_true, List.mem_cons] at h
      rcases h with h | h
      · exact Or.inr h
      · exact Or.inl (List.mem_cons_of_mem _ h)
    · simp only [replace, h0, if_false, List.mem_cons] at h
      rcases h with h | h
      · exact Or.inl (by simp [h])
      · rcases ih h with h1 | h1
        · exact Or.inl (List.mem_cons_of_mem _ h1)
        · exact Or.inr h1

theorem insertIndex_perm {α : Type} (o : List (String × α)) (n : Nat) (k : String) (v : α) :
    (insertIndex o n k v).Perm ((k, v) :: o) := by
  induction o with
  | nil => simp [insertIndex]
  | cons hd tl ih =>
    obtain ⟨k0, v0⟩ := hd
    simp only [insertIndex]
    split
    · split
      · exact (List.Perm.cons _ ih).trans (List.Perm.swap _ _ _)
      · exact List.Perm.refl _
    · exact List.Perm.refl _

/-- An assignment to a key that is not an own property, not `__proto__` and not an array
index appends the property. -/
theorem set_of_plain {α : Type} (o : List (String × α)) {k : String} (v : α)
    (h : own o k = none) (hproto : k ≠ "__proto__") (hidx : arrayIndex? k = none) :
    set o k v = o ++ [(k, v)] := by
  simp [set, h, hproto, hidx]

/-- After an assignment the own properties are the old ones, with the assigned one
overwritten, added, or (for `__proto__`) not created as an own property. -/
theorem set_cases {α : Type} (o : List (String × α)) (k : String) (v : α) :
    (∃ v0, own o k = some v0 ∧ set o k v = replace o k v) ∨
    (own o k = none ∧ set o k v = o) ∨
    (own o k = none ∧ (set o k v).Perm ((k, v) :: o)) := by
  unfold set
  cases h : own o k with
  | some v0 => exact Or.inl ⟨v0, rfl, rfl⟩
  | none =>
    simp only
    split
    · exact Or.inr (Or.inl ⟨trivial, rfl⟩)
    · split
      · exact Or.inr (Or.inr ⟨trivial, insertIndex_perm o _ k v⟩)
      · exact Or.inr (Or.inr ⟨trivial,
          (List.perm_append_comm : (o ++ [(k, v)]).Perm ([(k, v)] ++ o))⟩)

end JSObject

/-! ## The invariant of stored rooms -/

theorem StateInv_put {s s2 : State} {rid : String} {room : Room} (hs : StateInv s)
    (hr : RoomInv room) (h2 : s2.rooms = Table.put s.rooms rid room) : StateInv s2 := by
  intro q r hq
  rw [h2, Table.get_put] at hq
  split at hq
  · simp only [Option.some.injEq] at hq
    rw [← hq]; exact hr
  · exact hs q r hq

theorem RoomInv_newRoom (rid : String) (t : Nat) : RoomInv (newRoom rid t) := by
  simp [RoomInv, newRoom, JSObject.keys]

theorem RoomInv_set {r : Room} (hr : RoomInv r) (pn : String) (p : Player) (hp : p.name = pn) :
    RoomInv { r with players := JSObject.set r.players pn p } := by
  obtain ⟨hn, hd, h3, h4, h5⟩ := hr
  refine ⟨?_, ?_, h3, h4, h5⟩
  · intro kp hkp
    simp only at hkp
    rcases JSObject.set_cases r.players pn p with ⟨v0, -, hs⟩ | ⟨-, hs⟩ | ⟨-, hs⟩
    · rw [hs] at hkp
      rcases JSObject.mem_replace hkp with h | h
      · exact hn kp h
      · rw [h]; exact hp
    · rw [hs] at hkp; exact hn kp hkp
    · rcases List.mem_cons.1 (hs.subset hkp) with h | h
      · rw [h]; exact hp
      · exact hn kp h
  · simp only
    rcases JSObject.set_cases r.players pn p with ⟨v0, -, hs⟩ | ⟨-, hs⟩ | ⟨ho, hs⟩
    · rw [hs, JSObject.keys_replace]; exact hd
    · rw [hs]; exact hd
    · have hk : (JSObject.keys (JSObject.set r.players pn p)).Perm
          (pn :: JSObject.keys r.players) := by
        simpa [JSObject.keys] using hs.map Prod.fst
      rw [hk.nodup_iff]
      exact List.nodup_cons.2 ⟨(JSObject.own_eq_none_iff _ _).1 ho, hd⟩

theorem RoomInv_startGame {r : Room} (hr : RoomInv r) (ts te : Nat) :
    RoomInv (startGame ts te r) := by
  unfold startGame
  split
  · obtain ⟨hn, hd, h3, h4, h5⟩ := hr
    refine ⟨hn, hd, h3, ?_, ?_⟩
    · intro h; simp at h
    · intro _
      exact ⟨ts, te, rfl, by simp [h3]⟩
  · exact hr

theorem RoomInv_storedRoom {room : Room} (hr : RoomInv room) (b : List (String × Player))
    (pn : String) : RoomInv (storedRoom b pn room) := by
  unfold RoomInv at hr ⊢
  simpa using hr

theorem RoomInv_click {r : Room} (hr : RoomInv r) {pn : String} {p : Player}
    (hp : JSObject.own r.players pn = some p) :
    RoomInv { r with players :=
      JSObject.replace r.players pn ({ p with clicks := p.clicks + 1 }) } := by
  obtain ⟨hn, hd, h3, h4, h5⟩ := hr
  refine ⟨?_, ?_, h3, h4, h5⟩
  · intro kp hkp
    rcases JSObject.mem_replace hkp with h | h
    · exact hn kp h
    · rw [h]; exact hn (pn, p) (JSObject.mem_of_own hp)
  · simp only [JSObject.keys_replace]; exact hd

theorem RoomInv_ended {r : Room} (hr : RoomInv r) (hp : r.gameState = GameState.playing) :
    RoomInv { r with gameState := GameState.ended } := by
  obtain ⟨hn, hd, h3, h4, h5⟩ := hr
  refine ⟨hn, hd, h3, ?_, ?_⟩
  · intro h; simp at h
  · intro _
    exact h5 (by rw [hp]; decide)

theorem handleJoin_inv (t tj : Nat) (c : String) (pn rid : Option String) (s : State)
    (hs : StateInv s) : StateInv (handleJoin t tj c pn rid s).1 := by
  unfold handleJoin
  split
  · rename_i p q hp hq
    refine StateInv_put hs (RoomInv_storedRoom ?_ _ _) rfl
    apply RoomInv_set _ p _ rfl
    split
    · rename_i r hr; exact hs _ _ hr
    · exact RoomInv_newRoom _ _
  · exact hs

theorem handleClick_inv (ts te tu tn inh : Nat) (c rid pn : String) (s : State)
    (hs : StateInv s) : StateInv (handleClick ts te tu tn inh c rid pn s).1 := by
  unfold handleClick
  split
  · exact hs
  · rename_i loaded hl
    have hr := RoomInv_startGame (hs _ _ hl) ts te
    simp only
    split
    · exact hs
    · split
      · rename_i p hg
        exact StateInv_put hs (RoomInv_click hr (get_own_iff.1 hg)) rfl
      · exact hs
      · exact StateInv_put hs hr rfl
      · exact hs

theorem endGame_inv (rid : String) (s : State) (hs : StateInv s) :
    StateInv (endGame rid s).1 := by
  unfold endGame
  split
  · exact hs
  · rename_i loaded hl
    split
    · rename_i hp
      exact StateInv_put hs (RoomInv_ended (hs _ _ hl) hp) rfl
    · exact hs

theorem step_inv (env : Env) (a : Action) (s : State) (hs : StateInv s) :
    StateInv (step env a s).1 := by
  cases a with
  | join c pn rid => exact handleJoin_inv _ _ c pn rid s hs
  | click c rid pn => exact handleClick_inv _ _ _ _ _ c rid pn s hs
  | getLeaderboard c rid => exact hs
  | getRoomState c rid =>
    simp only [step, getRoomState]
    split <;> exact hs
  | unknown c => exact hs
  | endGame rid => exact endGame_inv rid s hs

theorem run_inv (trace : List (Env × Action)) :
    ∀ s : State, StateInv s → StateInv (run trace s).1 := by
  induction trace with
  | nil => intro s hs; exact hs
  | cons ea rest ih =>
    intro s hs
    exact ih _ (step_inv ea.1 ea.2 s hs)

theorem initial_inv (conns : List (String × Connection)) : StateInv (initial conns) := by
  intro rid r h
  simp [initial, Table.get] at h

/-! ## The ranking -/

theorem Score.before_iff (a b : Score) : a.before b ↔ b.clicks ≤ a.clicks := by
  unfold Score.before
  omega

theorem rankScores_eq (players : List (String × Player)) :
    rankScores players = (scoreEntries players).insertionSort Score.before := rfl

theorem rankScores_perm (players : List (String × Player)) :
    (rankScores players).Perm (scoreEntries players) := by
  rw [rankScores_eq]
  exact List.perm_insertionSort _ _

theorem rankScores_sorted (players : List (String × Player)) :
    (rankScores players).Pairwise (fun a b => b.clicks ≤ a.clicks) := by
  haveI : IsTotal Score Score.before :=
    ⟨fun a b => by simp only [Score.before_iff]; exact le_total _ _⟩
  haveI : IsTrans Score Score.before :=
    ⟨fun a b c hab hbc => by
      simp only [Score.before_iff] at *; exact le_trans hbc hab⟩
  have h := List.sorted_insertionSort Score.before (scoreEntries players)
  rw [rankScores_eq]
  exact List.Pairwise.imp (fun {a b} hab => (Score.before_iff a b).1 hab) h

/-- Stability: entries that already stand in an admissible order keep their relative
order in the ranking. -/
theorem rankScores_stable (players : List (String × Player)) (c : List Score)
    (hc : c.Pairwise (fun a b => b.clicks ≤ a.clicks)) (hs : c.Sublist (scoreEntries players)) :
    c.Sublist (rankScores players) := by
  haveI : IsTotal Score Score.before :=
    ⟨fun a b => by simp only [Score.before_iff]; exact le_total _ _⟩
  haveI : IsTrans Score Score.before :=
    ⟨fun a b c hab hbc => by
      simp only [Score.before_iff] at *; exact le_trans hbc hab⟩
  rw [rankScores_eq]
  exact List.sublist_insertionSort
    (List.Pairwise.imp (fun {a b} hab => (Score.before_iff a b).2 hab) hc) hs

/-- The entries with a given click count appear in the ranking in enumeration order. -/
theorem rankScores_ties (players : List (String × Player)) (n : Nat) :
    (rankScores players).filter (fun e => decide (e.clicks = n)) =
      (scoreEntries players).filter (fun e => decide (e.clicks = n)) := by
  set p : Score → Bool := fun e => decide (e.clicks = n) with hpdef
  have hsub : ((scoreEntries players).filter p).Sublist (rankScores players) := by
    apply rankScores_stable
    · rw [List.pairwise_iff_forall_sublist]
      intro a b hab
      have ha : a ∈ (scoreEntries players).filter p := hab.subset (by simp)
      have hb : b ∈ (scoreEntries players).filter p := hab.subset (by simp)
      simp only [hpdef, List.mem_filter, decide_eq_true_eq] at ha hb
      rw [ha.2, hb.2]
    · exact List.filter_sublist _
  have hsub2 : ((scoreEntries players).filter p).Sublist ((rankScores players).filter p) := by
    have h := hsub.filter p
    simpa only [List.filter_filter, Bool.and_self] using h
  have hlen : ((rankScores players).filter p).length = ((scoreEntries players).filter p).length :=
    ((rankScores_perm players).filter p).length_eq
  exact (hsub2.eq_of_length hlen.symm).symm

/-! ## Player names and join order -/

theorem handleClick_get_of_ne (ts te tu tn inh : Nat) (c rid0 pn : String) (s : State)
    {rid : String} (hk : rid0 ≠ rid) :
    Table.get (handleClick ts te tu tn inh c rid0 pn s).1.rooms rid = Table.get s.rooms rid := by
  unfold handleClick
  split
  · rfl
  · simp only
    split
    · rfl
    · split
      · simp [registerClick, Table.get_put, hk]
      · rfl
      · simp [registerClick, Table.get_put, hk]
      · rfl

theorem endGame_get_of_ne (rid0 : String) (s : State) {rid : String} (hk : rid0 ≠ rid) :
    Table.get (endGame rid0 s).1.rooms rid = Table.get s.rooms rid := by
  unfold endGame
  split
  · rfl
  · split
    · simp [Table.get_put, hk]
    · rfl

theorem handleClick_roomKeys (ts te tu tn inh : Nat) (c rid0 pn : String) (s : State)
    (rid : String) : roomKeys (handleClick ts te tu tn inh c rid0 pn s).1 rid = roomKeys s rid := by
  cases h : Table.get s.rooms rid with
  | some r =>
    obtain ⟨r2, h2, hf⟩ := handleClick_players ts te tu tn inh c rid0 pn s rid r h
    simp only [roomKeys, h, h2]
    rcases hf with hf | ⟨p, -, -, -, hf⟩
    · rw [hf]
    · rw [hf, JSObject.keys_replace]
  | none =>
    by_cases hk : rid0 = rid
    · subst hk
      simp [roomKeys, handleClick, h]
    · simp [roomKeys, handleClick_get_of_ne _ _ _ _ _ _ _ _ _ hk, h]

theorem endGame_roomKeys (rid0 : String) (s : State) (rid : String) :
    roomKeys (endGame rid0 s).1 rid = roomKeys s rid := by
  cases h : Table.get s.rooms rid with
  | some r =>
    obtain ⟨r2, h2, hf⟩ := endGame_room_frame rid0 s rid r h
    simp only [roomKeys, h, h2]
    rcases hf with hf | ⟨-, -, hf⟩ <;> rw [hf]
  | none =>
    by_cases hk : rid0 = rid
    · subst hk
      simp [roomKeys, endGame, h]
    · simp [roomKeys, endGame_get_of_ne _ _ hk, h]

theorem keys_set_of_plain (o : List (String × Player)) (k : String) (v : Player)
    (hk : plainName k = true) :
    JSObject.keys (JSObject.set o k v) =
      if k ∈ JSObject.keys o then JSObject.keys o else JSObject.keys o ++ [k] := by
  simp only [plainName, Bool.and_eq_true, Option.isNone_iff_eq_none, bne_iff_ne, ne_eq] at hk
  cases h : JSObject.own o k with
  | some v0 =>
    have hmem : k ∈ JSObject.keys o := by
      by_contra hc
      rw [(JSObject.own_eq_none_iff o k).2 hc] at h
      exact absurd h (by simp)
    rw [JSObject.set_of_own o v h, JSObject.keys_replace, if_pos hmem]
  | none =>
    have hmem : k ∉ JSObject.keys o := (JSObject.own_eq_none_iff o k).1 h
    rw [JSObject.set_of_plain o v h hk.2 hk.1, if_neg hmem]
    simp [JSObject.keys]

theorem handleJoin_roomKeys (tc tj : Nat) (c : String) (pn rid0 : Option String) (s : State)
    (rid : String)
    (hplain : ∀ p, (Action.join c pn rid0).joinedName rid = some p → plainName p = true) :
    roomKeys (handleJoin tc tj c pn rid0 s).1 rid =
      match (Action.join c pn rid0).joinedName rid with
      | some p => if p ∈ roomKeys s rid then roomKeys s rid else roomKeys s rid ++ [p]
      | none => roomKeys s rid := by
  unfold handleJoin
  simp only [Action.joinedName] at hplain ⊢
  cases hp : truthy pn with
  | none => simp only [hp]
  | some p =>
    cases hq : truthy rid0 with
    | none => simp only [hp, hq]
    | some q =>
      simp only [hp, hq] at hplain ⊢
      by_cases hk : q = rid
      · subst hk
        simp only [if_true] at hplain ⊢
        have hpl := hplain p rfl
        simp only [roomKeys, Table.get_put_self, storedRoom_players]
        cases h : Table.get s.rooms q with
        | some r => simp only [keys_set_of_plain _ _ _ hpl]
        | none =>
          simp only [newRoom]
          rw [keys_set_of_plain _ _ _ hpl]
          simp [JSObject.keys]
      · simp only [hk, if_false, roomKeys, Table.get_put_of_ne _ _ hk]

theorem step_roomKeys (env : Env) (a : Action) (s : State) (rid : String)
    (hplain : ∀ p, a.joinedName rid = some p → plainName p = true) :
    roomKeys (step env a s).1 rid =
      match a.joinedName rid with
      | some p => if p ∈ roomKeys s rid then roomKeys s rid else roomKeys s rid ++ [p]
      | none => roomKeys s rid := by
  cases a with
  | join c pn rid0 => exact handleJoin_roomKeys _ _ c pn rid0 s rid hplain
  | click c rid0 pn => exact handleClick_roomKeys _ _ _ _ _ c rid0 pn s rid
  | getLeaderboard c rid0 => rfl
  | getRoomState c rid0 =>
    simp only [step, getRoomState, Action.joinedName]
    split <;> rfl
  | unknown c => rfl
  | endGame rid0 => exact endGame_roomKeys rid0 s rid

/-- While only plain names join, the player names of a room are enumerated in the order
of their first join. -/
theorem run_roomKeys (rid : String) (trace : List (Env × Action)) :
    ∀ s : State, (∀ ea ∈ trace, ∀ p, ea.2.joinedName rid = some p → plainName p = true) →
      roomKeys (run trace s).1 rid = joinOrderFrom rid (roomKeys s rid) trace := by
  induction trace with
  | nil => intro s _; rfl
  | cons ea rest ih =>
    intro s hplain
    obtain ⟨env, a⟩ := ea
    have h1 := step_roomKeys env a s rid (hplain (env, a) (List.mem_cons_self _ _))
    have h2 := ih (step env a s).1 (fun ea hea => hplain ea (List.mem_cons_of_mem _ hea))
    simp only [run, joinOrderFrom]
    rw [h2, h1]
    cases a.joinedName rid <;> rfl

theorem scoreEntries_names {players : List (String × Player)}
    (hn : ∀ kp ∈ players, kp.2.name = kp.1) :
    (scoreEntries players).map Score.name = JSObject.keys players := by
  induction players with
  | nil => rfl
  | cons hd tl ih =>
    have h1 := hn hd (List.mem_cons_self _ _)
    have h2 := ih (fun kp hkp => hn kp (List.mem_cons_of_mem _ hkp))
    simp only [scoreEntries, JSObject.values, JSObject.keys, List.map_cons, List.map_map] at h2 ⊢
    rw [h2, h1]

/-- In a list whose names are pairwise distinct, the order of two entries is the order
of their names. -/
theorem pair_sublist_of_names (l : List Score) (hd : (l.map Score.name).Nodup) (a b : Score)
    (ha : a ∈ l) (hb : b ∈ l) (hs : [a.name, b.name].Sublist (l.map Score.name)) :
    [a, b].Sublist l := by
  induction l with
  | nil => simp at ha
  | cons x t ih =>
    simp only [List.map_cons, List.nodup_cons] at hd
    obtain ⟨hx, hdt⟩ := hd
    simp only [List.map_cons] at hs
    rcases List.sublist_cons_iff.1 hs with hs | ⟨rest, hrest, hs⟩
    · have han : a.name ∈ t.map Score.name := hs.subset (by simp)
      have hbn : b.name ∈ t.map Score.name := hs.subset (by simp)
      have ha2 : a ∈ t := by
        rcases List.mem_cons.1 ha with h | h
        · rw [h] at han; exact absurd han hx
        · exact h
      have hb2 : b ∈ t := by
        rcases List.mem_cons.1 hb with h | h
        · rw [h] at hbn; exact absurd hbn hx
        · exact h
      exact (ih hdt ha2 hb2 hs).cons _
    · simp only [List.cons.injEq] at hrest
      obtain ⟨hax, hrest⟩ := hrest
      rw [← hrest] at hs
      have hbn : b.name ∈ t.map Score.name := hs.subset (by simp)
      have ha2 : a = x := by
        rcases List.mem_cons.1 ha with h | h
        · exact h
        · exact absurd (List.mem_map_of_mem Score.name h) (by rw [hax]; exact hx)
      have hb2 : b ∈ t := by
        rcases List.mem_cons.1 hb with h | h
        · rw [h] at hbn; exact absurd hbn hx
        · exact h
      rw [ha2]
      exact (List.singleton_sublist.2 hb2).cons₂ _

theorem mem_broadcastToRoom {conns : List (String × Connection)} {rid : String} {data : Message}
    {excl : Option String} {x : String × Message} (h : x ∈ broadcastToRoom conns rid data excl) :
    x.2 = data := by
  simp only [broadcastToRoom, List.mem_map] at h
  obtain ⟨kc, -, hx⟩ := h
  rw [← hx]

/-- Every `scoreUpdate` a click sends carries the ranking of the room as stored by that
click. -/
theorem handleClick_scoreUpdate (ts te tu tn inh : Nat) (c rid pn : String) (s : State)
    (x : String × Message) (sc : List Score) (tr : Option Int)
    (hx : x ∈ (handleClick ts te tu tn inh c rid pn s).2.sends)
    (hm : x.2 = Message.scoreUpdate sc tr) :
    ∃ r2, Table.get (handleClick ts te tu tn inh c rid pn s).1.rooms rid = some r2 ∧
      sc = rankScores r2.players ∧ tr = clickTimeRemaining r2 tn ∧
      r2.gameState = GameState.playing := by
  unfold handleClick at hx ⊢
  split at hx
  · simp only [sendMessage, List.mem_singleton] at hx
    rw [hx] at hm; exact absurd hm (by simp)
  · rename_i loaded hl
    simp only [hl]
    simp only at hx
    split at hx
    · simp only [sendMessage, List.mem_singleton] at hx
      rw [hx] at hm; exact absurd hm (by simp)
    · rename_i hplay
      simp only [hplay, if_false]
      have hplay2 := not_not.1 hplay
      split at hx
      · rename_i p hg
        simp only [hg, registerClick, Table.get_put_self]
        simp only [registerClick, sendMessage, List.mem_append, List.mem_singleton] at hx
        rcases hx with hx | hx
        · have := mem_broadcastToRoom hx
          rw [this] at hm
          simp only [Message.scoreUpdate.injEq] at hm
          exact ⟨_, rfl, hm.1.symm, hm.2.symm, hplay2⟩
        · rw [hx] at hm; exact absurd hm (by simp)
      · simp only [sendMessage, List.mem_singleton] at hx
        rw [hx] at hm; exact absurd hm (by simp)
      · rename_i hg
        simp only [hg, registerClick, Table.get_put_self]
        simp only [registerClick, sendMessage, List.mem_append, List.mem_singleton] at hx
        rcases hx with hx | hx
        · have := mem_broadcastToRoom hx
          rw [this] at hm
          simp only [Message.scoreUpdate.injEq] at hm
          exact ⟨_, rfl, hm.1.symm, hm.2.symm, hplay2⟩
        · rw [hx] at hm; exact absurd hm (by simp)
      · simp only [sendMessage, List.mem_singleton] at hx
        rw [hx] at hm; exact absurd hm (by simp)

/-! ## Rooms without foreign entries -/

theorem handleJoin_playersOnly (tc tj : Nat) (c : String) (pn rid0 : Option String) (s : State)
    (rid : String) (hs : PlayersOnly s rid)
    (ha : (Action.join c pn rid0).joinsProto rid = false) :
    PlayersOnly (handleJoin tc tj c pn rid0 s).1 rid := by
  intro r hr
  rw [Option.mem_def] at hr
  unfold handleJoin at hr
  split at hr
  · rename_i p q hp hq
    by_cases hk : q = rid
    · subst hk
      have hne : p ≠ "__proto__" := by
        intro he
        simp [Action.joinsProto, Action.joinedName, hp, hq, he] at ha
      simp only [Table.get_put_self, Option.some.injEq, storedRoom_of_ne _ _ hne] at hr
      rw [← hr]
      cases hg : Table.get s.rooms q with
      | none => simp [newRoom]
      | some r0 => simpa using hs r0 hg
    · simp only [Table.get_put_of_ne _ _ hk] at hr
      exact hs r hr
  · exact hs r hr

theorem startGame_foreignEntries (ts te : Nat) (r : Room) :
    (startGame ts te r).foreignEntries = r.foreignEntries := by
  unfold startGame
  split <;> rfl

theorem handleClick_playersOnly (ts te tu tn inh : Nat) (c rid0 pn : String) (s : State)
    (rid : String) (hs : PlayersOnly s rid) :
    PlayersOnly (handleClick ts te tu tn inh c rid0 pn s).1 rid := by
  intro r hr
  rw [Option.mem_def] at hr
  unfold handleClick at hr
  cases hl : Table.get s.rooms rid0 with
  | none =>
    rw [hl] at hr
    exact hs r hr
  | some loaded =>
    rw [hl] at hr
    simp only at hr
    split at hr
    · exact hs r hr
    · by_cases hk : rid0 = rid
      · subst hk
        have hf := hs loaded hl
        split at hr
        · simp only [registerClick, Table.get_put_self, Option.some.injEq] at hr
          rw [← hr]
          simpa [startGame_foreignEntries] using hf
        · exact hs r hr
        · simp only [registerClick, Table.get_put_self, Option.some.injEq] at hr
          rw [← hr]
          simpa [startGame_foreignEntries] using hf
        · exact hs r hr
      · split at hr
        · simp only [registerClick, Table.get_put_of_ne _ _ hk] at hr
          exact hs r hr
        · exact hs r hr
        · simp only [registerClick, Table.get_put_of_ne _ _ hk] at hr
          exact hs r hr
        · exact hs r hr

theorem endGame_playersOnly (rid0 : String) (s : State) (rid : String)
    (hs : PlayersOnly s rid) : PlayersOnly (endGame rid0 s).1 rid := by
  intro r hr
  rw [Option.mem_def] at hr
  obtain ⟨r0, h0⟩ : ∃ r0, Table.get s.rooms rid = some r0 := by
    cases hg : Table.get s.rooms rid with
    | some r0 => exact ⟨r0, rfl⟩
    | none =>
      exfalso
      unfold endGame at hr
      cases hl : Table.get s.rooms rid0 with
      | none => rw [hl] at hr; simp [hg] at hr
      | some loaded =>
        rw [hl] at hr
        simp only at hr
        have hk : rid0 ≠ rid := by
          intro he
          rw [he, hg] at hl
          exact absurd hl (by simp)
        split at hr
        · simp [Table.get_put_of_ne _ _ hk, hg] at hr
        · simp [hg] at hr
  obtain ⟨r2, h2, hf⟩ := endGame_room_frame rid0 s rid r0 h0
  rw [h2] at hr
  simp only [Option.some.injEq] at hr
  rw [← hr]
  rcases hf with hf | ⟨-, -, hf⟩
  · rw [hf]; exact hs r0 h0
  · rw [hf]; exact hs r0 h0

/-- An action other than a join under `__proto__` into the room adds no foreign entries
to the room's players. -/
theorem step_playersOnly (env : Env) (a : Action) (s : State) (rid : String)
    (hs : PlayersOnly s rid) (ha : a.joinsProto rid = false) :
    PlayersOnly (step env a s).1 rid := by
  cases a with
  | join c pn rid0 => exact handleJoin_playersOnly _ _ c pn rid0 s rid hs ha
  | click c rid0 pn => exact handleClick_playersOnly _ _ _ _ _ c rid0 pn s rid hs
  | getLeaderboard c rid0 => exact hs
  | getRoomState c rid0 =>
    intro r hr
    rw [Option.mem_def] at hr
    simp only [step, getRoomState] at hr
    split at hr <;> exact hs r hr
  | unknown c => exact hs
  | endGame rid0 => exact endGame_playersOnly rid0 s rid hs

theorem run_playersOnly (rid : String) (trace : List (Env × Action)) :
    ∀ s : State, PlayersOnly s rid → (∀ ea ∈ trace, ea.2.joinsProto rid = false) →
      PlayersOnly (run trace s).1 rid := by
  induction trace with
  | nil => intro s hs _; exact hs
  | cons ea rest ih =>
    intro s hs ha
    obtain ⟨env, a⟩ := ea
    exact ih (step env a s).1
      (step_playersOnly env a s rid hs (ha (env, a) (List.mem_cons_self _ _)))
      (fun ea hea => ha ea (List.mem_cons_of_mem _ hea))

theorem initial_playersOnly (conns : List (String × Connection)) (rid : String) :
    PlayersOnly (initial conns) rid := by
  intro r hr
  rw [Option.mem_def] at hr
  simp [initial, Table.get] at hr

/-! ## The claims on the ranking -/

/-- C3 fails as stated. The player named 10 joins room r1 first, the player named 2
second, and nobody clicks; `getRoomState` then ranks 2 ahead of 10 although both have 0
clicks and 10 joined first. -/
theorem numeric_names_rank_out_of_join_order :
    firstJoinOrder numericJoins "r1" = ["10", "2"] ∧
    (getRoomState 300 "c1" "r1" (run numericJoins (initial sampleConns)).1).2.sends =
      [("c1", Message.roomState "r1" GameState.waiting ["2", "10"]
          [{ name := "2", clicks := 0 }, { name := "10", clicks := 0 }] 30)] := by
  decide

/-- C3, as the code has it. For every room stored after a trace from a table without
rooms in which no join into the room names the player `__proto__`: the stored players
map holds player entries only; the ranked list has exactly one (name, clicks) entry per
player, the names being the pairwise distinct player names of the room; it is
non-increasing in clicks; entries with equal clicks stand in the enumeration order of
`room.players` (`Object.values`); and when no name joined into the room is an array
index like 2 or 10, that order is the order of first joins, so that of two players with
equal clicks the one who first joined earlier ranks higher. This list is the one sent
by `getRoomState`, by `endGame`, and (for the room as stored by the click) by
`handleClick`. -/
theorem ranking_follows_enumeration_order (conns : List (String × Connection))
    (trace : List (Env × Action)) (rid : String) (r : Room)
    (hproto : ∀ ea ∈ trace, ea.2.joinsProto rid = false)
    (h : Table.get (run trace (initial conns)).1.rooms rid = some r) :
    r.foreignEntries = false ∧
    (rankScores r.players).Perm (scoreEntries r.players) ∧
    (scoreEntries r.players).map Score.name = JSObject.keys r.players ∧
    (JSObject.keys r.players).Nodup ∧
    (rankScores r.players).Pairwise (fun a b => b.clicks ≤ a.clicks) ∧
    (∀ n : Nat, (rankScores r.players).filter (fun e => decide (e.clicks = n)) =
      (scoreEntries r.players).filter (fun e => decide (e.clicks = n))) ∧
    ((∀ ea ∈ trace, ea.2.joinsPlain rid = true) →
      JSObject.keys r.players = firstJoinOrder trace rid ∧
      ∀ a b : Score, a ∈ rankScores r.players → b ∈ rankScores r.players →
        a.clicks = b.clicks → [a.name, b.name].Sublist (firstJoinOrder trace rid) →
        [a, b].Sublist (rankScores r.players)) ∧
    (∀ (tn : Nat) (c : String),
      (getRoomState tn c rid (run trace (initial conns)).1).2.sends =
        [(c, Message.roomState rid r.gameState (JSObject.keys r.players)
              (rankScores r.players) (roomStateTimeRemaining r tn))]) ∧
    (∀ x ∈ (endGame rid (run trace (initial conns)).1).2.sends,
      x.2 = Message.gameEnded (rankScores r.players) (rankScores r.players).head?) ∧
    (∀ (ts te tu tn inh : Nat) (c pn : String) (x : String × Message) (sc : List Score)
        (tr : Option Int),
      x ∈ (handleClick ts te tu tn inh c rid pn (run trace (initial conns)).1).2.sends →
      x.2 = Message.scoreUpdate sc tr →
      ∃ r2, Table.get (handleClick ts te tu tn inh c rid pn
          (run trace (initial conns)).1).1.rooms rid = some r2 ∧ sc = rankScores r2.players) := by
  have hinv : RoomInv r := run_inv trace _ (initial_inv conns) rid r h
  have hnames := scoreEntries_names hinv.1
  refine ⟨run_playersOnly rid trace _ (initial_playersOnly conns rid) hproto r h,
    rankScores_perm _, hnames, hinv.2.1, rankScores_sorted _, rankScores_ties _,
    ?_, ?_, ?_, ?_⟩
  · intro hplain
    have hkeys : JSObject.keys r.players = firstJoinOrder trace rid := by
      have hrun := run_roomKeys rid trace (initial conns) (by
        intro ea hea p hp
        have := hplain ea hea
        simpa [Action.joinsPlain, hp] using this)
      simp only [roomKeys, h] at hrun
      rw [hrun]
      simp [firstJoinOrder, initial, Table.get]
    refine ⟨hkeys, ?_⟩
    intro a b ha hb hab hs
    have ha2 : a ∈ scoreEntries r.players := (rankScores_perm _).subset ha
    have hb2 : b ∈ scoreEntries r.players := (rankScores_perm _).subset hb
    apply rankScores_stable
    · simp [hab]
    · apply pair_sublist_of_names _ _ a b ha2 hb2
      · rw [hnames, hkeys]; exact hs
      · rw [hnames]; exact hinv.2.1
  · intro tn c
    simp [getRoomState, h, sendMessage]
  · intro x hx
    unfold endGame at hx
    simp only [h] at hx
    split at hx
    · exact mem_broadcastToRoom hx
    · simp at hx
  · intro ts te tu tn inh c pn x sc tr hx hm
    obtain ⟨r2, h2, hsc, -, -⟩ := handleClick_scoreUpdate ts te tu tn inh c rid pn _ x sc tr hx hm
    exact ⟨r2, h2, hsc⟩

/-- C3 as amended, at the sample room: alice and bob joined in this order. -/
theorem ranking_follows_enumeration_order_witness :
    Table.get (run sampleJoins (initial sampleConns)).1.rooms "r1" = some sampleRoom ∧
    JSObject.keys sampleRoom.players = firstJoinOrder sampleJoins "r1" ∧
    rankScores sampleRoom.players =
      [{ name := "alice", clicks := 0 }, { name := "bob", clicks := 0 }] ∧
    [({ name := "alice", clicks := 0 } : Score), { name := "bob", clicks := 0 }].Sublist
      (rankScores sampleRoom.players) :=
  have H := ranking_follows_enumeration_order sampleConns sampleJoins "r1" sampleRoom
    (by decide) (by decide)
  ⟨by decide, (H.2.2.2.2.2.2.1 (by decide)).1, by decide,
   (H.2.2.2.2.2.2.1 (by decide)).2 _ _ (by decide) (by decide) rfl (by decide)⟩

/-! ## The claims on clicks -/

/-- C4, the code at the failing input. In the waiting room r1 (players alice and bob) a
click under the name mallory, who has no entry, is answered with an error and changes
no store, yet it arms an expiry timer for r1; a second such click arms another one.
When alice then starts the game at time 26000 (end time 56000), the timer armed by the
first stray click, firing 30 seconds after time 1000, finds the room playing and ends
the game although its end time has not come. -/
theorem stray_click_arms_timer :
    step (envAt 1000) (Action.click "c1" "r1" "mallory") sampleWaiting =
      (sampleWaiting,
       { sends := [("c1", Message.error "Player not found in room")],
         timers := [("r1", 30000)] }) ∧
    (run [(envAt 1000, Action.click "c1" "r1" "mallory"),
          (envAt 2000, Action.click "c1" "r1" "mallory")] sampleWaiting).2.map Output.timers =
      [[("r1", 30000)], [("r1", 30000)]] ∧
    (Table.get (run [(envAt 1000, Action.click "c1" "r1" "mallory"),
          (envAt 26000, Action.click "c1" "r1" "alice"),
          (envAt 31000, Action.endGame "r1")] sampleWaiting).1.rooms "r1").map
        (fun r => (r.gameState, r.gameEndsAt)) =
      some (GameState.ended, some 56000) := by
  decide

/-- C5. For a stored room that is waiting or playing and a player name with an entry in
it, a click stores the room with that player's click count raised by exactly 1 (the
entry otherwise as it was), every other player's entry and the order of the names
unchanged; it stores a leaderboard item for the player whose `clicks` and sort key
`GSI1SK` are the new count; and after the `scoreUpdate` broadcast its last delivery is
`clickRegistered` with the new count to the caller, the only `clickRegistered` sent. -/
theorem click_increments_player (ts te tu tn inh : Nat) (c rid pn : String) (s : State)
    (r : Room) (p : Player) (h : Table.get s.rooms rid = some r)
    (hs : r.gameState = GameState.waiting ∨ r.gameState = GameState.playing)
    (hp : JSObject.own r.players pn = some p) :
    ∃ r2, Table.get (handleClick ts te tu tn inh c rid pn s).1.rooms rid = some r2 ∧
      JSObject.own r2.players pn = some { p with clicks := p.clicks + 1 } ∧
      (∀ q, q ≠ pn → JSObject.own r2.players q = JSObject.own r.players q) ∧
      JSObject.keys r2.players = JSObject.keys r.players ∧
      Table.get (handleClick ts te tu tn inh c rid pn s).1.scores (rid, pn) =
        some { roomId := rid, playerName := pn, GSI1SK := p.clicks + 1,
               clicks := p.clicks + 1, updatedAt := some tu } ∧
      (handleClick ts te tu tn inh c rid pn s).2.sends =
        broadcastToRoom s.conns rid
          (Message.scoreUpdate (rankScores r2.players) (clickTimeRemaining r2 tn)) none
        ++ [(c, Message.clickRegistered (p.clicks + 1))] := by
  have hplay : (startGame ts te r).gameState = GameState.playing := by
    rcases hs with hs | hs <;> simp [startGame, hs]
  have hg : JSObject.get (startGame ts te r).players pn = JSObject.Lookup.own p := by
    rw [startGame_players]; exact get_own_iff.2 hp
  unfold handleClick
  simp only [h, hplay, ne_eq, not_true_eq_false, if_false, hg, registerClick,
    Table.get_put_self, sendMessage]
  refine ⟨_, rfl, ?_, ?_, ?_, ?_, ?_⟩
  · simp [JSObject.own_replace, startGame_players, hp]
  · intro q hq
    simp [JSObject.own_replace, startGame_players, Ne.symm hq]
  · simp [JSObject.keys_replace, startGame_players]
  · trivial
  · rfl

/-- C5 at the sample room: alice, who has three clicks, clicks once more. -/
theorem click_increments_player_witness :
    Table.get samplePlaying.rooms "r1" = some samplePlayingRoom ∧
    (samplePlayingRoom.gameState = GameState.waiting ∨
      samplePlayingRoom.gameState = GameState.playing) ∧
    JSObject.own samplePlayingRoom.players "alice" = some sampleAlice ∧
    ∃ r2, Table.get (handleClick 4000 4000 4000 4000 0 "c1" "r1" "alice"
          samplePlaying).1.rooms "r1" = some r2 ∧
      JSObject.own r2.players "alice" = some { sampleAlice with clicks := sampleAlice.clicks + 1 } ∧
      (∀ q, q ≠ "alice" → JSObject.own r2.players q = JSObject.own samplePlayingRoom.players q) ∧
      JSObject.keys r2.players = JSObject.keys samplePlayingRoom.players ∧
      Table.get (handleClick 4000 4000 4000 4000 0 "c1" "r1" "alice" samplePlaying).1.scores
          ("r1", "alice") =
        some { roomId := "r1", playerName := "alice", GSI1SK := sampleAlice.clicks + 1,
               clicks := sampleAlice.clicks + 1, updatedAt := some 4000 } ∧
      (handleClick 4000 4000 4000 4000 0 "c1" "r1" "alice" samplePlaying).2.sends =
        broadcastToRoom samplePlaying.conns "r1"
          (Message.scoreUpdate (rankScores r2.players) (clickTimeRemaining r2 4000)) none
        ++ [("c1", Message.clickRegistered (sampleAlice.clicks + 1))] :=
  ⟨by decide, by decide, by decide,
   click_increments_player 4000 4000 4000 4000 0 "c1" "r1" "alice" samplePlaying
     samplePlayingRoom sampleAlice (by decide) (by decide) (by decide)⟩

/-- C6, the code at the failing input. In the waiting room r1 (players alice and bob) a
click under the name constructor, which has no entry in the room, is not rejected: the
read `room.players[playerName]` finds the member inherited from `Object.prototype`, so
the room is stored as playing with start and end timestamps, a leaderboard item for
constructor is stored, `scoreUpdate` is broadcast to the room and the caller receives
`clickRegistered` instead of an error. -/
theorem click_under_inherited_name_is_accepted :
    JSObject.own sampleRoom.players "constructor" = none ∧
    Table.get sampleWaiting.rooms "r1" = some sampleRoom ∧
    step (envAt 1000) (Action.click "c1" "r1" "constructor") sampleWaiting =
      ({ conns := sampleWaiting.conns,
         rooms := [("r1", { sampleRoom with gameState := GameState.playing,
                                            gameStartedAt := some 1000,
                                            gameEndsAt := some 31000 })],
         scores := sampleWaiting.scores ++
           [(("r1", "constructor"),
             { roomId := "r1", playerName := "constructor", GSI1SK := 1, clicks := 1,
               updatedAt := some 1000 })] },
       { sends :=
           [("c1", Message.scoreUpdate
              [{ name := "alice", clicks := 0 }, { name := "bob", clicks := 0 }] (some 30)),
            ("c2", Message.scoreUpdate
              [{ name := "alice", clicks := 0 }, { name := "bob", clicks := 0 }] (some 30)),
            ("c1", Message.clickRegistered 1)],
         timers := [("r1", 30000)] }) := by
  decide

/-- The part of C6 the code does keep: a click on a missing room, on an ended room, or
under a name that is neither an own property of `room.players` nor inherited from
`Object.prototype`, sends one error to the caller and leaves the table as it was. -/
theorem handleClick_rejected (ts te tu tn inh : Nat) (c rid pn : String) (s : State) :
    (Table.get s.rooms rid = none →
      (handleClick ts te tu tn inh c rid pn s).1 = s ∧
      (handleClick ts te tu tn inh c rid pn s).2.sends = [(c, Message.error "Room not found")]) ∧
    (∀ r, Table.get s.rooms rid = some r → r.gameState = GameState.ended →
      (handleClick ts te tu tn inh c rid pn s).1 = s ∧
      (handleClick ts te tu tn inh c rid pn s).2.sends =
        [(c, Message.error "Game is not active")]) ∧
    (∀ r, Table.get s.rooms rid = some r → r.gameState ≠ GameState.ended →
      JSObject.own r.players pn = none → pn ∉ JSObject.objectPrototypeKeys →
      (handleClick ts te tu tn inh c rid pn s).1 = s ∧
      (handleClick ts te tu tn inh c rid pn s).2.sends =
        [(c, Message.error "Player not found in room")]) := by
  refine ⟨?_, ?_, ?_⟩
  · intro h
    simp [handleClick, h, sendMessage]
  · intro r h he
    simp [handleClick, h, startGame, he, sendMessage]
  · intro r h hne ho hk
    have hplay : (startGame ts te r).gameState = GameState.playing := by
      cases hg : r.gameState with
      | waiting => simp [startGame, hg]
      | playing => simp [startGame, hg]
      | ended => exact absurd hg hne
    have hproto : pn ≠ "__proto__" := by
      intro he
      rw [he] at hk
      exact hk (by decide)
    have hget : JSObject.get (startGame ts te r).players pn = JSObject.Lookup.absent := by
      rw [startGame_players]
      simp [JSObject.get, ho, hk, hproto]
    simp [handleClick, h, hplay, hget, sendMessage]

/-- The timers a click arms: one for the room, of `gameDuration * 1000` milliseconds,
exactly when the room it loads is waiting, whoever clicks. -/
theorem handleClick_timers (ts te tu tn inh : Nat) (c rid pn : String) (s : State) :
    (handleClick ts te tu tn inh c rid pn s).2.timers =
      match Table.get s.rooms rid with
      | some r => if r.gameState = GameState.waiting then [(rid, r.gameDuration * 1000)] else []
      | none => [] := by
  cases h : Table.get s.rooms rid with
  | none => simp [handleClick, h]
  | some r =>
    simp only [handleClick, h, startTimers]
    split
    · rfl
    · split <;> rfl

/-! ## The claims on timestamps -/

/-- Once a room has left the waiting state, no trace changes its start and end
timestamps. -/
theorem run_timestamps_fixed (trace : List (Env × Action)) :
    ∀ (s : State) (rid : String) (r : Room), Table.get s.rooms rid = some r →
      r.gameState ≠ GameState.waiting →
      ∃ r2, Table.get (run trace s).1.rooms rid = some r2 ∧
        r2.gameStartedAt = r.gameStartedAt ∧ r2.gameEndsAt = r.gameEndsAt := by
  induction trace with
  | nil => intro s rid r h _; exact ⟨r, h, rfl, rfl⟩
  | cons ea rest ih =>
    intro s rid r h hw
    obtain ⟨env, a⟩ := ea
    obtain ⟨r1, h1, hf⟩ := step_room_frame env a s rid r h
    have hkeep : r1.gameState ≠ GameState.waiting ∧ r1.gameStartedAt = r.gameStartedAt ∧
        r1.gameEndsAt = r.gameEndsAt := by
      rcases hf with hf | ⟨-, hw2, -⟩ | ⟨-, -, hf⟩
      · exact ⟨by rw [hf.1]; exact hw, hf.2.1, hf.2.2.1⟩
      · exact absurd hw2 hw
      · rw [hf]; exact ⟨by simp, rfl, rfl⟩
    obtain ⟨r2, h2, hs2, he2⟩ := ih (step env a s).1 rid r1 h1 hkeep.1
    exact ⟨r2, h2, by rw [hs2, hkeep.2.1], by rw [he2, hkeep.2.2]⟩

/-- C7 fails as stated. The click of alice that starts the game of room r1 reads the
clock twice, 1000 for `gameStartedAt` and 1001 for `gameEndsAt`: the room is stored
with start 1000, duration 30 and end 31001, which is not the stored start plus
`gameDuration * 1000`. -/
theorem starting_click_reads_clock_twice :
    (Table.get sampleWaiting.rooms "r1").map Room.gameState = some GameState.waiting ∧
    (Table.get (step tickingClock (Action.click "c1" "r1" "alice") sampleWaiting).1.rooms
        "r1").map (fun r => (r.gameState, r.gameStartedAt, r.gameEndsAt, r.gameDuration)) =
      some (GameState.playing, some 1000, some 31001, 30) ∧
    (Table.get (step tickingClock (Action.click "c1" "r1" "alice") sampleWaiting).1.rooms
        "r1").map (fun r => decide (r.gameEndsAt =
          r.gameStartedAt.map (fun t => t + r.gameDuration * 1000))) = some false := by
  decide

/-- C7, as the code has it. For a stored room and an action with the clock readings of
`env`: the room's `gameStartedAt` and `gameEndsAt` stay as they were unless the action
is a click on this room that moves it from waiting to playing, and then they are stored
as the click's first clock reading and its second clock reading plus
`gameDuration * 1000`. The click of a player of a waiting room does make that move:
`handleClick` stores its first reading `ts` as `gameStartedAt` and its second reading
`te` plus `gameDuration * 1000` as `gameEndsAt`, hence `t` and
`t + gameDuration * 1000` when both readings are the same moment `t`. Once the room is
not waiting, every action and every trace of joins, clicks, queries and timer callbacks
leaves both timestamps unchanged. -/
theorem gameEndsAt_written_by_starting_click (s : State) (rid : String) (r : Room)
    (h : Table.get s.rooms rid = some r) :
    (∀ (env : Env) (a : Action), ∃ r2, Table.get (step env a s).1.rooms rid = some r2 ∧
      ((r2.gameStartedAt = r.gameStartedAt ∧ r2.gameEndsAt = r.gameEndsAt) ∨
       ((∃ c pn, a = Action.click c rid pn) ∧ r.gameState = GameState.waiting ∧
         r2.gameState = GameState.playing ∧ r2.gameStartedAt = some env.started ∧
         r2.gameEndsAt = some (env.ends + r.gameDuration * 1000))) ∧
      (r.gameState ≠ GameState.waiting →
        r2.gameStartedAt = r.gameStartedAt ∧ r2.gameEndsAt = r.gameEndsAt)) ∧
    (∀ (ts te tu tn inh : Nat) (c pn : String) (p : Player),
      r.gameState = GameState.waiting → JSObject.own r.players pn = some p →
      ∃ r2, Table.get (handleClick ts te tu tn inh c rid pn s).1.rooms rid = some r2 ∧
        r2.gameState = GameState.playing ∧ r2.gameStartedAt = some ts ∧
        r2.gameEndsAt = some (te + r.gameDuration * 1000) ∧
        (ts = te → r2.gameEndsAt = some (ts + r.gameDuration * 1000))) ∧
    (∀ trace : List (Env × Action), r.gameState ≠ GameState.waiting →
      ∃ r2, Table.get (run trace s).1.rooms rid = some r2 ∧
        r2.gameStartedAt = r.gameStartedAt ∧ r2.gameEndsAt = r.gameEndsAt) := by
  refine ⟨?_, ?_, fun trace hw => run_timestamps_fixed trace s rid r h hw⟩
  · intro env a
    obtain ⟨r2, h2, hf⟩ := step_room_frame env a s rid r h
    refine ⟨r2, h2, ?_, ?_⟩
    · rcases hf with hf | ⟨ha, hw, hf⟩ | ⟨-, -, hf⟩
      · exact Or.inl ⟨hf.2.1, hf.2.2.1⟩
      · refine Or.inr ⟨ha, hw, ?_, ?_, ?_⟩
        · rw [hf.1]; simp [startGame, hw]
        · rw [hf.2.1]; simp [startGame, hw]
        · rw [hf.2.2.1]; simp [startGame, hw]
      · rw [hf]; exact Or.inl ⟨rfl, rfl⟩
    · intro hw
      rcases hf with hf | ⟨-, hw2, -⟩ | ⟨-, -, hf⟩
      · exact ⟨hf.2.1, hf.2.2.1⟩
      · exact absurd hw2 hw
      · rw [hf]; exact ⟨rfl, rfl⟩
  · intro ts te tu tn inh c pn p hw hp
    have hplay : (startGame ts te r).gameState = GameState.playing := by
      simp [startGame, hw]
    have hg : JSObject.get (startGame ts te r).players pn = JSObject.Lookup.own p := by
      rw [startGame_players]; exact get_own_iff.2 hp
    simp only [handleClick, h, hplay, ne_eq, not_true_eq_false, if_false, hg,
      registerClick, Table.get_put_self]
    refine ⟨_, rfl, rfl, by simp [startGame, hw], by simp [startGame, hw], ?_⟩
    intro hts
    simp [startGame, hw, hts]

/-- C7 as amended, at the sample rooms: alice starts the game of the waiting room with
clock readings 1000 and 1001, or with the single reading 1000, and later actions on the
playing room keep its timestamps. -/
theorem gameEndsAt_written_by_starting_click_witness :
    Table.get sampleWaiting.rooms "r1" = some sampleRoom ∧
    (∃ r2, Table.get (handleClick 1000 1001 1001 1001 0 "c1" "r1" "alice"
          sampleWaiting).1.rooms "r1" = some r2 ∧
        r2.gameState = GameState.playing ∧ r2.gameStartedAt = some 1000 ∧
        r2.gameEndsAt = some (1001 + sampleRoom.gameDuration * 1000)) ∧
    (∃ r2, Table.get (handleClick 1000 1000 1000 1000 0 "c1" "r1" "alice"
          sampleWaiting).1.rooms "r1" = some r2 ∧
        r2.gameStartedAt = some 1000 ∧
        r2.gameEndsAt = some (1000 + sampleRoom.gameDuration * 1000)) ∧
    Table.get samplePlaying.rooms "r1" = some samplePlayingRoom ∧
    (∃ r2, Table.get (run [(envAt 5000, Action.join "c2" (some "alice") (some "r1")),
          (envAt 6000, Action.click "c2" "r1" "alice"),
          (envAt 31000, Action.endGame "r1")] samplePlaying).1.rooms "r1" = some r2 ∧
        r2.gameStartedAt = samplePlayingRoom.gameStartedAt ∧
        r2.gameEndsAt = samplePlayingRoom.gameEndsAt) :=
  ⟨by decide,
   ((gameEndsAt_written_by_starting_click sampleWaiting "r1" sampleRoom (by decide)).2.1
     1000 1001 1001 1001 0 "c1" "alice" _ (by decide)
     (by decide : JSObject.own sampleRoom.players "alice" =
       some { name := "alice", clicks := 0, joinedAt := 100, connectionId := "c1" })).elim
     (fun r2 h => ⟨r2, h.1, h.2.1, h.2.2.1, h.2.2.2.1⟩),
   ((gameEndsAt_written_by_starting_click sampleWaiting "r1" sampleRoom (by decide)).2.1
     1000 1000 1000 1000 0 "c1" "alice" _ (by decide)
     (by decide : JSObject.own sampleRoom.players "alice" =
       some { name := "alice", clicks := 0, joinedAt := 100, connectionId := "c1" })).elim
     (fun r2 h => ⟨r2, h.1, h.2.2.1, h.2.2.2.2 rfl⟩),
   by decide,
   (gameEndsAt_written_by_starting_click samplePlaying "r1" samplePlayingRoom (by decide)).2.2
     _ (by decide)⟩

theorem ceilDiv1000_eq_ceil (x : Int) : ceilDiv1000 x = ⌈(x : ℚ) / 1000⌉ := by
  have h1 : ⌈(x : ℚ) / 1000⌉ = -⌊-((x : ℚ) / 1000)⌋ := by
    rw [Int.floor_neg, neg_neg]
  have h2 : -((x : ℚ) / 1000) = (((-x : Int) : ℚ)) / ((1000 : Nat) : ℚ) := by
    push_cast
    ring
  rw [h1, h2, Rat.floor_intCast_div_natCast]
  rfl

theorem secondsLeft_eq_spec (e now : Nat) : secondsLeft e now = timeRemainingSpec e now := by
  unfold secondsLeft timeRemainingSpec
  rw [ceilDiv1000_eq_ceil]

theorem secondsLeft_nonneg (e now : Nat) : 0 ≤ secondsLeft e now := by
  unfold secondsLeft
  exact le_max_left _ _

theorem secondsLeft_eq_zero_iff (e now : Nat) : secondsLeft e now = 0 ↔ e ≤ now := by
  unfold secondsLeft ceilDiv1000
  omega

theorem secondsLeft_le (s d now : Nat) (h : s ≤ now) :
    secondsLeft (s + d * 1000) now ≤ d := by
  unfold secondsLeft ceilDiv1000
  push_cast
  omega

theorem secondsLeft_start (s d : Nat) : secondsLeft (s + d * 1000) s = d := by
  unfold secondsLeft ceilDiv1000
  push_cast
  omega


/-- C8 fails as stated. Alice starts the game of room r1 with a click during which the
clock ticks: the room is stored with `gameStartedAt` 1000, `gameEndsAt` 31001 and
`gameDuration` 30. At the reading `now = 1000 = gameStartedAt` both `scoreUpdate` and
`getRoomState` report 31 seconds, more than `gameDuration`. -/
theorem timeRemaining_exceeds_gameDuration_at_start :
    (Table.get (run tickingGame (initial sampleConns)).1.rooms "r1").map
        (fun r => (r.gameStartedAt, r.gameEndsAt, r.gameDuration,
          clickTimeRemaining r 1000, roomStateTimeRemaining r 1000)) =
      some (some 1000, some 31001, 30, some 31, 31) ∧
    ((getRoomState 1000 "c1" "r1" (run tickingGame (initial sampleConns)).1).2.sends.map
        (fun x => (x.1, x.2.roomStateTime))) = [("c1", some 31)] := by
  decide

/-- C8, as the code has it. For every room stored after a trace from a table without
rooms and every clock reading `now`: when the room has a `gameEndsAt`, the
`timeRemaining` computed for `scoreUpdate` and for `roomState` is
`max 0 (ceil ((gameEndsAt - now) / 1000))`, which is never negative, is 0 exactly when
`now >= gameEndsAt`, is at most `gameDuration` when
`now >= gameEndsAt - gameDuration * 1000` and equals `gameDuration` when
`now = gameEndsAt - gameDuration * 1000`; the bounds hold relative to `gameStartedAt`
when `gameEndsAt = gameStartedAt + gameDuration * 1000`, that is when the clock did not
tick between the two readings of the starting click. When the room has no `gameEndsAt`,
`roomState` reports `gameDuration`. These are the values sent: `getRoomState` sends
`roomStateTimeRemaining`, and every `scoreUpdate` of a click carries the formula's value
for the room as stored by that click. -/
theorem timeRemaining_is_ceiling_of_seconds_left (conns : List (String × Connection))
    (trace : List (Env × Action)) (rid : String) (r : Room)
    (h : Table.get (run trace (initial conns)).1.rooms rid = some r) :
    (∀ e, r.gameEndsAt = some e → ∀ now : Nat,
      clickTimeRemaining r now = some (timeRemainingSpec e now) ∧
      roomStateTimeRemaining r now = timeRemainingSpec e now ∧
      0 ≤ timeRemainingSpec e now ∧
      (timeRemainingSpec e now = 0 ↔ e ≤ now) ∧
      r.gameDuration * 1000 ≤ e ∧
      (e ≤ now + r.gameDuration * 1000 →
        timeRemainingSpec e now ≤ (r.gameDuration : Int)) ∧
      (e = now + r.gameDuration * 1000 →
        timeRemainingSpec e now = (r.gameDuration : Int)) ∧
      (∀ st, r.gameStartedAt = some st → e = st + r.gameDuration * 1000 →
        (st ≤ now → timeRemainingSpec e now ≤ (r.gameDuration : Int)) ∧
        (now = st → timeRemainingSpec e now = (r.gameDuration : Int)))) ∧
    (r.gameEndsAt = none → ∀ now : Nat, roomStateTimeRemaining r now = (r.gameDuration : Int)) ∧
    (∀ (now : Nat) (c : String),
      (getRoomState now c rid (run trace (initial conns)).1).2.sends.map
          (fun x => (x.1, x.2.roomStateTime)) =
        [(c, some (roomStateTimeRemaining r now))]) ∧
    (∀ (env : Env) (c pn : String) (x : String × Message) (sc : List Score) (tr : Option Int),
      x ∈ (step env (Action.click c rid pn) (run trace (initial conns)).1).2.sends →
      x.2 = Message.scoreUpdate sc tr →
      ∃ r2 e, Table.get (step env (Action.click c rid pn)
          (run trace (initial conns)).1).1.rooms rid = some r2 ∧
        r2.gameEndsAt = some e ∧ tr = some (timeRemainingSpec e env.now)) := by
  have hstate : StateInv (run trace (initial conns)).1 := run_inv trace _ (initial_inv conns)
  have hinv : RoomInv r := hstate rid r h
  obtain ⟨-, -, hdur, hwait, hstarted⟩ := hinv
  refine ⟨?_, ?_, ?_, ?_⟩
  · intro e he now
    have hnw : r.gameState ≠ GameState.waiting := by
      intro hw
      rw [(hwait hw).2] at he
      exact absurd he (by simp)
    obtain ⟨ts, te, hst, het⟩ := hstarted hnw
    rw [het] at he
    simp only [Option.some.injEq] at he
    have hpos : e ≠ 0 := by omega
    have hle : ∀ m : Nat, e ≤ m + 30 * 1000 → timeRemainingSpec e m ≤ ((30 : Nat) : Int) := by
      intro m hm
      rw [← secondsLeft_eq_spec, ← he]
      exact secondsLeft_le te 30 m (by omega)
    have heq : ∀ m : Nat, e = m + 30 * 1000 → timeRemainingSpec e m = ((30 : Nat) : Int) := by
      intro m hm
      have hte : te = m := by omega
      rw [← secondsLeft_eq_spec, ← he, hte]
      exact secondsLeft_start m 30
    rw [hdur]
    refine ⟨?_, ?_, ?_, ?_, by omega, hle now, heq now, ?_⟩
    · simp [clickTimeRemaining, het, he, secondsLeft_eq_spec]
    · simp [roomStateTimeRemaining, het, he, hpos, secondsLeft_eq_spec]
    · rw [← secondsLeft_eq_spec]; exact secondsLeft_nonneg e now
    · rw [← secondsLeft_eq_spec]; exact secondsLeft_eq_zero_iff e now
    · intro st _ hes
      refine ⟨fun hsn => hle now (by omega), fun hnow => heq now (by omega)⟩
  · intro he now
    simp [roomStateTimeRemaining, he]
  · intro now c
    simp [getRoomState, h, sendMessage, Message.roomStateTime]
  · intro env c pn x sc tr hx hm
    obtain ⟨r2, h2, -, htr, hplay⟩ := handleClick_scoreUpdate env.started env.ends env.updated env.now
      env.inheritedClicks c rid pn _ x sc tr hx hm
    have hinv2 : RoomInv r2 := step_inv env (Action.click c rid pn) _ hstate rid r2 h2
    obtain ⟨-, t, -, het⟩ := hinv2.2.2.2.2 (by rw [hplay]; decide)
    exact ⟨r2, t + 30000, h2, het, by
      rw [htr]; simp [clickTimeRemaining, het, secondsLeft_eq_spec]⟩

/-- C8 as amended, at the sample room, started at time 1000 and ending at time 31000. -/
theorem timeRemaining_is_ceiling_of_seconds_left_witness :
    Table.get (run sampleGame (initial sampleConns)).1.rooms "r1" = some samplePlayingRoom ∧
    samplePlayingRoom.gameEndsAt = some 31000 ∧
    roomStateTimeRemaining samplePlayingRoom 1001 = timeRemainingSpec 31000 1001 ∧
    roomStateTimeRemaining samplePlayingRoom 1001 = 30 ∧
    timeRemainingSpec 31000 1000 = (samplePlayingRoom.gameDuration : Int) ∧
    timeRemainingSpec 31000 5000 ≤ (samplePlayingRoom.gameDuration : Int) :=
  have H := timeRemaining_is_ceiling_of_seconds_left sampleConns sampleGame "r1"
    samplePlayingRoom (by decide)
  ⟨by decide, by decide, (H.1 31000 (by decide) 1001).2.1, by decide,
   (H.1 31000 (by decide) 1000).2.2.2.2.2.2.1 (by decide),
   (H.1 31000 (by decide) 5000).2.2.2.2.2.1 (by decide)⟩

/-! ## The claims on the end of the game -/

/-- C9. When no room is stored under `roomId`, or the stored room is not playing,
`endGame` leaves the whole table as it is and sends nothing; hence for every table a
second `endGame` right after a first one changes nothing and sends nothing, so the room
is stored as after the first run and `gameEnded` is broadcast at most once. -/
theorem endGame_only_ends_playing_room :
    (∀ (s : State) (rid : String),
      (∀ r, Table.get s.rooms rid = some r → r.gameState ≠ GameState.playing) →
      endGame rid s = (s, Output.none)) ∧
    (∀ (s : State) (rid : String),
      endGame rid (endGame rid s).1 = ((endGame rid s).1, Output.none)) := by
  have hnoop : ∀ (s : State) (rid : String),
      (∀ r, Table.get s.rooms rid = some r → r.gameState ≠ GameState.playing) →
      endGame rid s = (s, Output.none) := by
    intro s rid hr
    unfold endGame
    split
    · rfl
    · rename_i loaded hl
      simp [hr loaded hl, Output.none]
  refine ⟨hnoop, ?_⟩
  intro s rid
  apply hnoop
  intro r2 h2
  unfold endGame at h2
  split at h2
  · rename_i hl
    rw [hl] at h2
    exact absurd h2 (by simp)
  · rename_i loaded hl
    split at h2
    · simp only [Table.get_put_self, Option.some.injEq] at h2
      rw [← h2]
      simp
    · rename_i hp
      rw [hl] at h2
      simp only [Option.some.injEq] at h2
      rw [← h2]
      exact hp

/-- C9 at the sample rooms: the timer callback on the waiting room, and twice on the
playing room. -/
theorem endGame_only_ends_playing_room_witness :
    endGame "r1" sampleWaiting = (sampleWaiting, Output.none) ∧
    endGame "r1" (endGame "r1" samplePlaying).1 = ((endGame "r1" samplePlaying).1, Output.none) :=
  ⟨endGame_only_ends_playing_room.1 sampleWaiting "r1" (by
      intro r hr
      rw [sampleWaiting_room] at hr
      simp only [Option.some.injEq] at hr
      rw [← hr]; decide),
   endGame_only_ends_playing_room.2 samplePlaying "r1"⟩

/-- After a trace from a table without rooms in which only plain names join the room,
the player names of the room are enumerated in the order of their first join. -/
theorem keys_eq_firstJoinOrder (conns : List (String × Connection))
    (trace : List (Env × Action)) (rid : String) (r : Room)
    (h : Table.get (run trace (initial conns)).1.rooms rid = some r)
    (hplain : ∀ ea ∈ trace, ea.2.joinsPlain rid = true) :
    JSObject.keys r.players = firstJoinOrder trace rid := by
  have hrun := run_roomKeys rid trace (initial conns) (by
    intro ea hea p hp
    have := hplain ea hea
    simpa [Action.joinsPlain, hp] using this)
  simp only [roomKeys, h] at hrun
  rw [hrun]
  simp [firstJoinOrder, initial, Table.get]

/-- The head of the ranking has the most clicks and is the first entry, in enumeration
order, among those with that many clicks. -/
theorem rankScores_head (players : List (String × Player)) (w : Score)
    (hw : (rankScores players).head? = some w) :
    w ∈ scoreEntries players ∧ (∀ e ∈ scoreEntries players, e.clicks ≤ w.clicks) ∧
    ((scoreEntries players).filter (fun e => decide (e.clicks = w.clicks))).head? = some w := by
  cases hr : rankScores players with
  | nil => rw [hr] at hw; simp at hw
  | cons x rest =>
    rw [hr] at hw
    simp only [List.head?_cons, Option.some.injEq] at hw
    subst hw
    have hperm := rankScores_perm players
    have hsorted := rankScores_sorted players
    rw [hr] at hperm hsorted
    refine ⟨hperm.subset (List.mem_cons_self _ _), ?_, ?_⟩
    · intro e he
      rcases List.mem_cons.1 (hperm.symm.subset he) with h | h
      · rw [h]
      · exact List.rel_of_pairwise_cons hsorted h
    · rw [← rankScores_ties, hr]
      simp [List.filter_cons]

/-- C10 fails as stated. The player named 10 joins room r1 first and clicks first, the
player named 2 joins second and clicks once as well; `endGame` announces 2 as the
winner although 10, tied with 2 at the maximum, joined earlier. -/
theorem numeric_names_winner_not_earliest_joined :
    firstJoinOrder numericGame "r1" = ["10", "2"] ∧
    (endGame "r1" (run numericGame (initial sampleConns)).1).2.sends =
      [("c1", Message.gameEnded
          [{ name := "2", clicks := 1 }, { name := "10", clicks := 1 }]
          (some { name := "2", clicks := 1 })),
       ("c2", Message.gameEnded
          [{ name := "2", clicks := 1 }, { name := "10", clicks := 1 }]
          (some { name := "2", clicks := 1 }))] := by
  decide

/-- C10, as the code has it. For a room that is playing after a trace from a table
without rooms in which no join into the room names the player `__proto__`: the stored
players map holds player entries only, `endGame` stores the room with game state ended
and everything else, every player entry included, unchanged, and broadcasts `gameEnded`
whose `finalScores` is the ranked list of the room's players and whose `winner` is the
first entry of that list: null exactly when the room has no players, otherwise a player
whose clicks are greater than or equal to every player's clicks and who is the first,
in the enumeration order of `room.players`, among those tied at the maximum; when no
name joined into the room is an array index, the winner is the one of them who first
joined earliest. -/
theorem endGame_announces_head_of_ranking (conns : List (String × Connection))
    (trace : List (Env × Action)) (rid : String) (r : Room)
    (hproto : ∀ ea ∈ trace, ea.2.joinsProto rid = false)
    (h : Table.get (run trace (initial conns)).1.rooms rid = some r)
    (hp : r.gameState = GameState.playing) :
    r.foreignEntries = false ∧
    (endGame rid (run trace (initial conns)).1).1 =
      { (run trace (initial conns)).1 with
        rooms := Table.put (run trace (initial conns)).1.rooms rid
          { r with gameState := GameState.ended } } ∧
    Table.get (endGame rid (run trace (initial conns)).1).1.rooms rid =
      some { r with gameState := GameState.ended } ∧
    (endGame rid (run trace (initial conns)).1).2.sends =
      broadcastToRoom (run trace (initial conns)).1.conns rid
        (Message.gameEnded (rankScores r.players) (rankScores r.players).head?) none ∧
    ((rankScores r.players).head? = none ↔ r.players = []) ∧
    (∀ w, (rankScores r.players).head? = some w →
      w ∈ scoreEntries r.players ∧ (∀ e ∈ scoreEntries r.players, e.clicks ≤ w.clicks) ∧
      ((scoreEntries r.players).filter (fun e => decide (e.clicks = w.clicks))).head? = some w ∧
      ((∀ ea ∈ trace, ea.2.joinsPlain rid = true) →
        ∀ e ∈ scoreEntries r.players, e.clicks = w.clicks → e ≠ w →
          [w.name, e.name].Sublist (firstJoinOrder trace rid))) := by
  have hinv : RoomInv r := run_inv trace _ (initial_inv conns) rid r h
  refine ⟨run_playersOnly rid trace _ (initial_playersOnly conns rid) hproto r h,
    ?_, ?_, ?_, ?_, ?_⟩
  · simp [endGame, h, hp]
  · simp [endGame, h, hp, Table.get_put_self]
  · simp [endGame, h, hp]
  · constructor
    · intro hn
      have hlen := (rankScores_perm r.players).length_eq
      rw [List.head?_eq_none_iff.1 hn] at hlen
      simp only [scoreEntries, JSObject.values, List.length_nil, List.length_map] at hlen
      exact List.length_eq_zero.1 hlen.symm
    · intro he
      rw [he]; rfl
  · intro w hw
    obtain ⟨h1, h2, h3⟩ := rankScores_head r.players w hw
    refine ⟨h1, h2, h3, ?_⟩
    intro hplain e he hec hne
    have hkeys := keys_eq_firstJoinOrder conns trace rid r h hplain
    have hnames := scoreEntries_names hinv.1
    rw [← hkeys, ← hnames]
    have hmem : e ∈ (scoreEntries r.players).filter (fun e => decide (e.clicks = w.clicks)) := by
      simp [List.mem_filter, he, hec]
    cases hf : (scoreEntries r.players).filter (fun e => decide (e.clicks = w.clicks)) with
    | nil => rw [hf] at hmem; simp at hmem
    | cons x tl =>
      rw [hf] at h3 hmem
      simp only [List.head?_cons, Option.some.injEq] at h3
      subst h3
      have he2 : e ∈ tl := by
        rcases List.mem_cons.1 hmem with h | h
        · exact absurd h hne
        · exact h
      have hsub : [x, e].Sublist (scoreEntries r.players) := by
        have h1 : [x, e].Sublist (x :: tl) := (List.singleton_sublist.2 he2).cons₂ _
        rw [← hf] at h1
        exact h1.trans (List.filter_sublist _)
      simpa using hsub.map Score.name

/-- C10 as amended, at the sample room where alice and bob are tied at one click: the
room is stored as ended and alice, who joined first, is the head of the ranking. -/
theorem endGame_announces_head_of_ranking_witness :
    Table.get (run sampleTie (initial sampleConns)).1.rooms "r1" = some sampleTieRoom ∧
    sampleTieRoom.gameState = GameState.playing ∧
    Table.get (endGame "r1" (run sampleTie (initial sampleConns)).1).1.rooms "r1" =
      some { sampleTieRoom with gameState := GameState.ended } ∧
    (rankScores sampleTieRoom.players).head? = some { name := "alice", clicks := 1 } ∧
    (∀ e ∈ scoreEntries sampleTieRoom.players, e.clicks ≤ 1) ∧
    ["alice", "bob"].Sublist (firstJoinOrder sampleTie "r1") :=
  have H := endGame_announces_head_of_ranking sampleConns sampleTie "r1" sampleTieRoom
    (by decide) (by decide) (by decide)
  ⟨by decide, by decide, H.2.2.1, by decide,
   (H.2.2.2.2.2 { name := "alice", clicks := 1 } (by decide)).2.1,
   (H.2.2.2.2.2 { name := "alice", clicks := 1 } (by decide)).2.2.2 (by decide)
     { name := "bob", clicks := 1 } (by decide) rfl (by decide)⟩

/-! ## The claims on joins -/

/-- C12. A join whose `playerName` or `roomId` is missing or empty returns the table
exactly as it was (connection records, rooms and leaderboard items alike) and attempts a
single delivery: the error `playerName and roomId are required` to the calling
connection, so nothing is broadcast. Conversely a join with both fields non-empty sends
no error message at all: its deliveries are `playerJoined` broadcasts followed by the
`joined` confirmation to the caller. -/
theorem join_requires_both_fields (tc tj : Nat) (c : String) (pn rid : Option String)
    (s : State) :
    ((pn = none ∨ pn = some "" ∨ rid = none ∨ rid = some "") →
      handleJoin tc tj c pn rid s =
        (s, { sends := [(c, Message.error "playerName and roomId are required")],
              timers := [] })) ∧
    (∀ p r : String, pn = some p → rid = some r → p ≠ "" → r ≠ "" →
      (∀ x ∈ (handleJoin tc tj c pn rid s).2.sends, ∀ m : String, x.2 ≠ Message.error m) ∧
      (handleJoin tc tj c pn rid s).2.sends.getLast? =
        some (c, Message.joined r p (roomKeys (handleJoin tc tj c pn rid s).1 r)
          (((Table.get (handleJoin tc tj c pn rid s).1.rooms r).map Room.gameState).getD
            GameState.waiting))) := by
  constructor
  · intro h
    have hnone : truthy pn = none ∨ truthy rid = none := by
      rcases h with h | h | h | h
      · exact Or.inl (by rw [h]; rfl)
      · exact Or.inl (by rw [h]; simp [truthy])
      · exact Or.inr (by rw [h]; rfl)
      · exact Or.inr (by rw [h]; simp [truthy])
    unfold handleJoin
    split
    · rename_i p q hp hq
      rcases hnone with h | h
      · rw [h] at hp; exact absurd hp (by simp)
      · rw [h] at hq; exact absurd hq (by simp)
    · rfl
  · intro p r hp hr hpe hre
    subst hp hr
    unfold handleJoin
    simp only [truthy_some hpe, truthy_some hre, sendMessage, roomKeys, Table.get_put_self,
      Option.map_some', Option.getD_some]
    constructor
    · intro x hx m
      rcases List.mem_append.1 hx with hx | hx
      · rw [mem_broadcastToRoom hx]; simp
      · simp only [List.mem_singleton] at hx
        rw [hx]; simp
    · simp

/-- C12 at the sample state: a join without a player name, and a join of carol. -/
theorem join_requires_both_fields_witness :
    handleJoin 300 300 "c1" none (some "r1") sampleWaiting =
      (sampleWaiting, { sends := [("c1", Message.error "playerName and roomId are required")],
                        timers := [] }) ∧
    handleJoin 300 300 "c1" (some "carol") (some "") sampleWaiting =
      (sampleWaiting, { sends := [("c1", Message.error "playerName and roomId are required")],
                        timers := [] }) ∧
    (∀ x ∈ (handleJoin 300 300 "c1" (some "carol") (some "r1") sampleWaiting).2.sends,
      ∀ m : String, x.2 ≠ Message.error m) :=
  ⟨(join_requires_both_fields 300 300 "c1" none (some "r1") sampleWaiting).1 (Or.inl rfl),
   (join_requires_both_fields 300 300 "c1" (some "carol") (some "") sampleWaiting).1
     (Or.inr (Or.inr (Or.inr rfl))),
   ((join_requires_both_fields 300 300 "c1" (some "carol") (some "r1") sampleWaiting).2
     "carol" "r1" rfl rfl (by decide) (by decide)).1⟩

theorem isRecipient_iff (excl : Option String) (c : Connection) :
    isRecipient excl c = (isRecipient none c && (some (c.connectionId.getD "") != excl)) := by
  unfold isRecipient
  cases h : c.connectionId with
  | none => simp
  | some id =>
    have hn : (some id != (none : Option String)) = true := by
      simp [bne_iff_ne]
    simp only [hn, Bool.and_true, Option.getD_some]

/-- The connections a broadcast attempts, in order: those bound to the room other than
the excluded one. -/
theorem broadcastToRoom_recipients (conns : List (String × Connection)) (rid : String)
    (data : Message) (excl : Option String) :
    (broadcastToRoom conns rid data excl).map Prod.fst =
      (boundConnections conns rid).filter (fun id => some id != excl) := by
  unfold broadcastToRoom boundConnections
  induction conns with
  | nil => rfl
  | cons kc tl ih =>
    simp only [List.filter_cons, isRecipient_iff excl kc.2]
    cases ha : decide (kc.2.roomId = some rid) <;> cases hb : isRecipient none kc.2 <;>
      cases he : (some (kc.2.connectionId.getD "") != excl) <;>
      simp [ih, List.filter_cons, he]

namespace JSObject

theorem sublist_insertIndex {α : Type} (o : List (String × α)) (n : Nat) (k : String) (v : α) :
    o.Sublist (insertIndex o n k v) := by
  induction o with
  | nil => simp
  | cons hd tl ih =>
    obtain ⟨k0, v0⟩ := hd
    simp only [insertIndex]
    split
    · split
      · exact ih.cons₂ _
      · exact List.sublist_cons_self _ _
    · exact List.sublist_cons_self _ _

end JSObject

/-- The player names after the assignment `players[k] = v`, by the kind of name. -/
theorem keys_set (o : List (String × Player)) (k : String) (v : Player) :
    (k ∈ JSObject.keys o → JSObject.keys (JSObject.set o k v) = JSObject.keys o) ∧
    (k ∉ JSObject.keys o → plainName k = true →
      JSObject.keys (JSObject.set o k v) = JSObject.keys o ++ [k]) ∧
    (k ∉ JSObject.keys o → k = "__proto__" →
      JSObject.keys (JSObject.set o k v) = JSObject.keys o) ∧
    (k ∉ JSObject.keys o → JSObject.arrayIndex? k ≠ none →
      (JSObject.keys (JSObject.set o k v)).Perm (k :: JSObject.keys o) ∧
      (JSObject.keys o).Sublist (JSObject.keys (JSObject.set o k v))) := by
  refine ⟨?_, ?_, ?_, ?_⟩
  · intro hk
    cases h : JSObject.own o k with
    | none => exact absurd hk ((JSObject.own_eq_none_iff o k).1 h)
    | some v0 => rw [JSObject.set_of_own o v h, JSObject.keys_replace]
  · intro hk hp
    rw [keys_set_of_plain o k v hp, if_neg hk]
  · intro hk hp
    have h := (JSObject.own_eq_none_iff o k).2 hk
    subst hp
    simp [JSObject.set, h]
  · intro hk hi
    have h := (JSObject.own_eq_none_iff o k).2 hk
    have hp : k ≠ "__proto__" := by
      intro he
      rw [he] at hi
      exact hi (by decide)
    cases hn : JSObject.arrayIndex? k with
    | none => exact absurd hn hi
    | some n =>
      have hset : JSObject.set o k v = JSObject.insertIndex o n k v := by
        simp [JSObject.set, h, hp, hn]
      rw [hset]
      constructor
      · simpa [JSObject.keys] using (JSObject.insertIndex_perm o n k v).map Prod.fst
      · simpa [JSObject.keys] using (JSObject.sublist_insertIndex o n k v).map Prod.fst

/-- C11 fails as stated. In room r1 alice and bob have joined; when the player named 2
joins, the player-name list sent in `joined` and `playerJoined` and stored in the room
is 2, alice, bob: the new name is not appended to the previous list but put ahead
of it. When instead the player named `__proto__` joins, the list sent in `joined` and
`playerJoined` is alice, bob: the new name is not in it at all. -/
theorem numeric_name_joins_ahead_of_earlier_players :
    roomKeys sampleWaiting "r1" = ["alice", "bob"] ∧
    handleJoin 300 300 "c1" (some "2") (some "r1") sampleWaiting =
      ({ conns := [("c1", { connectionId := some "c1", playerName := some "2",
                            roomId := some "r1" }),
                   ("c2", { connectionId := some "c2", playerName := some "bob",
                            roomId := some "r1" })],
         rooms := [("r1", { sampleRoom with players :=
            ("2", { name := "2", clicks := 0, joinedAt := 300, connectionId := "c1" }) ::
              sampleRoom.players })],
         scores := sampleWaiting.scores ++
           [(("r1", "2"), { roomId := "r1", playerName := "2", GSI1SK := 0, clicks := 0,
                            updatedAt := none })] },
       { sends := [("c2", Message.playerJoined "2" ["2", "alice", "bob"] GameState.waiting),
                   ("c1", Message.joined "r1" "2" ["2", "alice", "bob"] GameState.waiting)],
         timers := [] }) ∧
    (handleJoin 300 300 "c1" (some "__proto__") (some "r1") sampleWaiting).2.sends =
      [("c2", Message.playerJoined "__proto__" ["alice", "bob"] GameState.waiting),
       ("c1", Message.joined "r1" "__proto__" ["alice", "bob"] GameState.waiting)] := by
  decide

/-- C11, as the code has it. For a join with non-empty `roomId` and non-empty
`playerName` other than `__proto__`, into a room whose stored players map holds player
entries only: when no room is stored under `roomId`, the room worked on is new, with
game state waiting, duration 30 and no players. After the join the stored room has the
game state (and duration) it had before, its players map still holds player entries
only, and its player-name list is the previous list unchanged when the name was in it,
the previous list with the name appended when the name was absent and is no array
index, and the previous list with the name inserted somewhere, the others keeping their
order, when the absent name is an array index. The deliveries are `playerJoined` to
every connection bound to the room other than the joining one, then `joined` to the
joining connection, both carrying the stored player-name list and game state. -/
theorem join_adds_player_and_notifies (tc tj : Nat) (c pn rid : String) (s : State)
    (hpn : pn ≠ "") (hrid : rid ≠ "") (hproto : pn ≠ "__proto__")
    (hs : PlayersOnly s rid) :
    (Table.get s.rooms rid = none →
      (roomBefore s rid tc).gameState = GameState.waiting ∧
      (roomBefore s rid tc).gameDuration = 30 ∧ (roomBefore s rid tc).players = []) ∧
    ∃ r2, Table.get (handleJoin tc tj c (some pn) (some rid) s).1.rooms rid = some r2 ∧
      r2.foreignEntries = false ∧
      r2.gameState = (roomBefore s rid tc).gameState ∧
      r2.gameDuration = (roomBefore s rid tc).gameDuration ∧
      (pn ∈ JSObject.keys (roomBefore s rid tc).players →
        JSObject.keys r2.players = JSObject.keys (roomBefore s rid tc).players) ∧
      (pn ∉ JSObject.keys (roomBefore s rid tc).players → JSObject.arrayIndex? pn = none →
        JSObject.keys r2.players = JSObject.keys (roomBefore s rid tc).players ++ [pn]) ∧
      (pn ∉ JSObject.keys (roomBefore s rid tc).players → JSObject.arrayIndex? pn ≠ none →
        (JSObject.keys r2.players).Perm (pn :: JSObject.keys (roomBefore s rid tc).players) ∧
        (JSObject.keys (roomBefore s rid tc).players).Sublist (JSObject.keys r2.players)) ∧
      (handleJoin tc tj c (some pn) (some rid) s).2.sends =
        broadcastToRoom (handleJoin tc tj c (some pn) (some rid) s).1.conns rid
          (Message.playerJoined pn (JSObject.keys r2.players) r2.gameState) (some c)
        ++ [(c, Message.joined rid pn (JSObject.keys r2.players) r2.gameState)] ∧
      (broadcastToRoom (handleJoin tc tj c (some pn) (some rid) s).1.conns rid
          (Message.playerJoined pn (JSObject.keys r2.players) r2.gameState) (some c)).map
          Prod.fst =
        (boundConnections (handleJoin tc tj c (some pn) (some rid) s).1.conns rid).filter
          (fun id => some id != some c) ∧
      c ∉ (broadcastToRoom (handleJoin tc tj c (some pn) (some rid) s).1.conns rid
          (Message.playerJoined pn (JSObject.keys r2.players) r2.gameState) (some c)).map
          Prod.fst := by
  constructor
  · intro h
    simp [roomBefore, h, newRoom]
  · have hk := keys_set (roomBefore s rid tc).players pn
      { name := pn, clicks := 0, joinedAt := tj, connectionId := c }
    generalize hplayer :
      ({ name := pn, clicks := 0, joinedAt := tj, connectionId := c } : Player) = player at hk
    have hres : handleJoin tc tj c (some pn) (some rid) s =
        ({ conns := bindConnection s.conns c pn rid,
           rooms := Table.put s.rooms rid
             { roomBefore s rid tc with
               players := JSObject.set (roomBefore s rid tc).players pn player },
           scores := Table.put s.scores (rid, pn)
             { roomId := rid, playerName := pn, GSI1SK := 0, clicks := 0, updatedAt := none } },
         { sends := broadcastToRoom (bindConnection s.conns c pn rid) rid
              (Message.playerJoined pn
                (JSObject.keys (JSObject.set (roomBefore s rid tc).players pn player))
                (roomBefore s rid tc).gameState) (some c)
            ++ [(c, Message.joined rid pn
                (JSObject.keys (JSObject.set (roomBefore s rid tc).players pn player))
                (roomBefore s rid tc).gameState)],
           timers := [] }) := by
      unfold handleJoin
      simp only [truthy_some hpn, truthy_some hrid, sendMessage, roomBefore, hplayer,
        storedRoom_of_ne _ _ hproto]
    have hfe : (roomBefore s rid tc).foreignEntries = false := by
      unfold roomBefore
      cases hg : Table.get s.rooms rid with
      | none => simp [newRoom]
      | some r0 => simpa using hs r0 hg
    rw [hres]
    simp only [Table.get_put_self]
    refine ⟨_, rfl, hfe, rfl, rfl, hk.1, ?_, hk.2.2.2, rfl,
      broadcastToRoom_recipients _ _ _ _, ?_⟩
    · intro hne hidx
      exact hk.2.1 hne (by simp [plainName, hidx, hproto])
    · rw [broadcastToRoom_recipients]
      simp

/-- C11 as amended, at the sample state: carol joins the room of alice and bob on
connection c1, and dave joins a room that does not exist yet. -/
theorem join_adds_player_and_notifies_witness :
    roomKeys sampleWaiting "r1" = ["alice", "bob"] ∧
    (∃ r2, Table.get (handleJoin 300 300 "c1" (some "carol") (some "r1")
          sampleWaiting).1.rooms "r1" = some r2 ∧
      r2.gameState = GameState.waiting ∧
      JSObject.keys r2.players = ["alice", "bob", "carol"]) ∧
    (roomBefore sampleWaiting "r9" 300).gameState = GameState.waiting ∧
    (roomBefore sampleWaiting "r9" 300).gameDuration = 30 ∧
    (roomBefore sampleWaiting "r9" 300).players = [] :=
  have H := join_adds_player_and_notifies 300 300 "c1" "carol" "r1" sampleWaiting
    (by decide) (by decide) (by decide) (by decide)
  have H9 := join_adds_player_and_notifies 300 300 "c1" "dave" "r9" sampleWaiting
    (by decide) (by decide) (by decide) (by decide)
  ⟨by decide,
   H.2.elim (fun r2 h => ⟨r2, h.1, h.2.2.1, by
     rw [h.2.2.2.2.2.1 (by decide) (by decide)]; decide⟩),
   H9.1 (by decide)⟩

/-! ## The claim on broadcasts -/

theorem sendMessageAsync_attempts (failing : String → Bool) (c : String) (data : Message) :
    (sendMessageAsync failing c data).attempts = sendMessage c data := by
  unfold sendMessageAsync
  split <;> rfl

theorem sendMessageAsync_result (failing : String → Bool) (c : String) (data : Message) :
    (sendMessageAsync failing c data).result =
      Except.ok (if failing c then { statusCode := 500, body := "Failed to send message" }
                 else { statusCode := 200, body := "Message sent" }) := by
  unfold sendMessageAsync postToConnection
  by_cases h : failing c = true <;> simp [h]

theorem catchLog_attempts {α : Type} (p : Async α) : p.catchLog.attempts = p.attempts := by
  unfold Async.catchLog
  split <;> rfl

theorem broadcastToRoomAsync_attempts (failing : String → Bool)
    (conns : List (String × Connection)) (rid : String) (data : Message)
    (excl : Option String) :
    (broadcastToRoomAsync failing conns rid data excl).attempts =
      broadcastToRoom conns rid data excl := by
  unfold broadcastToRoomAsync promiseAll broadcastPromises broadcastToRoom
  simp only [List.map_map]
  induction conns.filter (fun kc =>
      decide (kc.2.roomId = some rid) && isRecipient excl kc.2) with
  | nil => rfl
  | cons kc tl ih =>
    simp only [List.map_cons, List.flatten_cons, Function.comp_apply, catchLog_attempts,
      sendMessageAsync_attempts, sendMessage, List.singleton_append]
    rw [ih]

/-- Every promise of a broadcast resolves, whatever the failure pattern. -/
theorem broadcastPromises_resolve (failing : String → Bool)
    (conns : List (String × Connection)) (rid : String) (data : Message)
    (excl : Option String) :
    ∀ p ∈ broadcastPromises failing conns rid data excl, ∃ v, p.result = Except.ok v := by
  intro p hp
  simp only [broadcastPromises, List.mem_map] at hp
  obtain ⟨kc, -, hkc⟩ := hp
  rw [← hkc]
  unfold Async.catchLog
  split
  · exact ⟨_, rfl⟩
  · exact ⟨_, rfl⟩

theorem broadcastToRoomAsync_result (failing : String → Bool)
    (conns : List (String × Connection)) (rid : String) (data : Message)
    (excl : Option String) :
    (broadcastToRoomAsync failing conns rid data excl).result = Except.ok () := by
  unfold broadcastToRoomAsync
  simp only
  split <;> rfl

/-- C13. For every table of connection records, room, message, optional excluded
connection and every pattern of failing deliveries, `broadcastToRoom` resolves without
an error, and its delivery attempts do not depend on the failure pattern: they are one
attempt of the message per connection record bound to the room whose `connectionId` is
not the excluded one, none to the excluded connection, and exactly one per connection
when the bound records carry pairwise distinct `connectionId`s (as the connect handler
writes them). Each `sendMessage` resolves too, with status 500 exactly for a failing
connection, and so does each promise handed to `Promise.all`. -/
theorem broadcast_attempts_every_recipient_once (failing : String → Bool)
    (conns : List (String × Connection)) (rid : String) (data : Message)
    (excl : Option String) :
    (broadcastToRoomAsync failing conns rid data excl).result = Except.ok () ∧
    (broadcastToRoomAsync failing conns rid data excl).attempts =
      broadcastToRoom conns rid data excl ∧
    ((broadcastToRoomAsync failing conns rid data excl).attempts.map Prod.fst =
      (boundConnections conns rid).filter (fun id => some id != excl)) ∧
    (∀ x ∈ (broadcastToRoomAsync failing conns rid data excl).attempts, x.2 = data) ∧
    ((boundConnections conns rid).Nodup → ∀ id ∈ boundConnections conns rid, some id ≠ excl →
      ((broadcastToRoomAsync failing conns rid data excl).attempts.map Prod.fst).count id = 1) ∧
    (∀ id, some id = excl →
      id ∉ (broadcastToRoomAsync failing conns rid data excl).attempts.map Prod.fst) ∧
    (∀ id, ∃ r, (sendMessageAsync failing id data).result = Except.ok r ∧
      (r.statusCode = 500 ↔ failing id = true)) ∧
    (∀ p ∈ broadcastPromises failing conns rid data excl, ∃ v, p.result = Except.ok v) := by
  have hatt := broadcastToRoomAsync_attempts failing conns rid data excl
  have hrec := broadcastToRoom_recipients conns rid data excl
  refine ⟨broadcastToRoomAsync_result failing conns rid data excl, hatt, ?_, ?_, ?_, ?_, ?_,
    broadcastPromises_resolve failing conns rid data excl⟩
  · rw [hatt, hrec]
  · intro x hx
    rw [hatt] at hx
    exact mem_broadcastToRoom hx
  · intro hnd id hid hne
    rw [hatt, hrec]
    apply List.count_eq_one_of_mem (hnd.filter _)
    simp only [List.mem_filter, bne_iff_ne, ne_eq]
    exact ⟨hid, hne⟩
  · intro id hid
    rw [hatt, hrec]
    simp [List.mem_filter, hid]
  · intro id
    refine ⟨_, sendMessageAsync_result failing id data, ?_⟩
    by_cases h : failing id = true <;> simp [h]

/-- C13 at the sample state where alice and bob are bound to room r1 on connections c1
and c2: with every delivery to c2 failing, a broadcast to the room still attempts c1 and
c2 once each and resolves. -/
theorem broadcast_attempts_every_recipient_once_witness :
    (boundConnections samplePlaying.conns "r1").Nodup ∧
    "c1" ∈ boundConnections samplePlaying.conns "r1" ∧
    "c2" ∈ boundConnections samplePlaying.conns "r1" ∧
    ((broadcastToRoomAsync c2Fails samplePlaying.conns "r1" (Message.clickRegistered 1)
        none).attempts.map Prod.fst).count "c1" = 1 ∧
    ((broadcastToRoomAsync c2Fails samplePlaying.conns "r1" (Message.clickRegistered 1)
        none).attempts.map Prod.fst).count "c2" = 1 ∧
    (broadcastToRoomAsync c2Fails samplePlaying.conns "r1" (Message.clickRegistered 1)
        none).result = Except.ok () :=
  have H := broadcast_attempts_every_recipient_once c2Fails samplePlaying.conns "r1"
    (Message.clickRegistered 1) none
  ⟨by decide, by decide, by decide,
   H.2.2.2.2.1 (by decide) "c1" (by decide) (by decide),
   H.2.2.2.2.1 (by decide) "c2" (by decide) (by decide), H.1⟩

/-! ## The leaderboard index -/

namespace Table

theorem keys_put {κ α : Type} [DecidableEq κ] (t : List (κ × α)) (k : κ) (v : α) :
    (put t k v).map Prod.fst =
      if k ∈ t.map Prod.fst then t.map Prod.fst else t.map Prod.fst ++ [k] := by
  induction t with
  | nil => simp [put]
  | cons hd tl ih =>
    obtain ⟨k0, v0⟩ := hd
    by_cases h0 : k0 = k
    · subst h0
      simp [put]
    · have h1 : ¬ k = k0 := fun h => h0 h.symm
      by_cases hm : k ∈ tl.map Prod.fst
      · simp only [put, h0, if_false, List.map_cons, ih, hm, if_true, List.mem_cons, or_true]
      · simp only [put, h0, if_false, List.map_cons, ih, hm, List.mem_cons, h1, or_self,
          List.cons_append]

theorem nodup_keys_put {κ α : Type} [DecidableEq κ] (t : List (κ × α)) (k : κ) (v : α)
    (h : (t.map Prod.fst).Nodup) : ((put t k v).map Prod.fst).Nodup := by
  rw [keys_put]
  split
  · exact h
  · rename_i hk
    rw [List.nodup_append]
    refine ⟨h, by simp, ?_⟩
    intro a ha hb
    simp only [List.mem_singleton] at hb
    rw [hb] at ha
    exact hk ha

theorem mem_of_get {κ α : Type} [DecidableEq κ] {t : List (κ × α)} {k : κ} {v : α}
    (h : get t k = some v) : (k, v) ∈ t := by
  induction t with
  | nil => simp [get] at h
  | cons hd tl ih =>
    obtain ⟨k0, v0⟩ := hd
    by_cases h0 : k0 = k
    · simp only [get, h0, if_true, Option.some.injEq] at h
      simp [h0, h]
    · simp only [get, h0, if_false] at h
      exact List.mem_cons_of_mem _ (ih h)

theorem get_of_mem {κ α : Type} [DecidableEq κ] {t : List (κ × α)} {k : κ} {v : α}
    (hn : (t.map Prod.fst).Nodup) (h : (k, v) ∈ t) : get t k = some v := by
  induction t with
  | nil => simp at h
  | cons hd tl ih =>
    obtain ⟨k0, v0⟩ := hd
    simp only [List.map_cons, List.nodup_cons] at hn
    rcases List.mem_cons.1 h with h | h
    · simp only [Prod.mk.injEq] at h
      simp [get, h.1, h.2]
    · have hk : k0 ≠ k := by
        intro he
        apply hn.1
        rw [he]
        exact List.mem_map_of_mem Prod.fst h
      simp only [get, hk, if_false]
      exact ih hn.2 h

end Table

namespace JSObject

theorem own_insertIndex_self {α : Type} (o : List (String × α)) (n : Nat) (k : String) (v : α)
    (h : own o k = none) : own (insertIndex o n k v) k = some v := by
  induction o with
  | nil => simp [insertIndex, own]
  | cons hd tl ih =>
    obtain ⟨k0, v0⟩ := hd
    have h0 : k0 ≠ k := by
      intro he
      simp [own, he] at h
    have ht : own tl k = none := by
      simpa [own, h0] using h
    simp only [insertIndex]
    split
    · split
      · simp [own, h0, ih ht]
      · simp [own]
    · simp [own]

theorem own_append_self {α : Type} (o : List (String × α)) (k : String) (v : α)
    (h : own o k = none) : own (o ++ [(k, v)]) k = some v := by
  induction o with
  | nil => simp [own]
  | cons hd tl ih =>
    obtain ⟨k0, v0⟩ := hd
    have h0 : k0 ≠ k := by
      intro he
      simp [own, he] at h
    have ht : own tl k = none := by
      simpa [own, h0] using h
    simp [own, h0, ih ht]

/-- After the assignment `o[k] = v` of a key other than `__proto__`, the own property
`k` has the value `v`. -/
theorem own_set_self {α : Type} (o : List (String × α)) (k : String) (v : α)
    (hk : k ≠ "__proto__") : own (set o k v) k = some v := by
  unfold set
  cases h : own o k with
  | some v0 => simp [own_replace, h]
  | none =>
    simp only [hk, if_false]
    split
    · exact own_insertIndex_self o _ k v h
    · exact own_append_self o k v h

end JSObject

theorem ScoresInv_update {s s2 : State} (hs : ScoresInv s) (rid pn : String) (item : ScoreItem)
    (room : Room) (hrooms : s2.rooms = Table.put s.rooms rid room)
    (hscores : s2.scores = Table.put s.scores (rid, pn) item)
    (hitem : item.roomId = rid ∧ item.playerName = pn ∧ item.GSI1SK = item.clicks)
    (hself : (JSObject.own room.players pn).map Player.clicks = some item.clicks)
    (hothers : ∀ name, name ≠ pn →
      (JSObject.own room.players name).map Player.clicks =
        (playerOf s rid name).map Player.clicks) : ScoresInv s2 := by
  obtain ⟨hnd, hwf, hcorr⟩ := hs
  refine ⟨?_, ?_, ?_⟩
  · rw [hscores]; exact Table.nodup_keys_put _ _ _ hnd
  · intro k it hk
    rw [hscores, Table.get_put] at hk
    split at hk
    · rename_i hkk
      simp only [Option.some.injEq] at hk
      rw [← hk, ← hkk]
      exact hitem
    · exact hwf k it hk
  · intro r n
    by_cases hr : rid = r
    · subst hr
      by_cases hn : pn = n
      · subst hn
        simp only [hscores, Table.get_put_self, Option.map_some', playerOf, hrooms,
          Option.some_bind, hself]
      · have hkey : (rid, pn) ≠ (rid, n) := by
          intro h
          exact hn (Prod.mk.inj h).2
        rw [hscores, Table.get_put_of_ne _ _ hkey, hcorr]
        simp only [playerOf, hrooms, Table.get_put_self, Option.some_bind]
        exact (hothers n (Ne.symm hn)).symm
    · have hkey : (rid, pn) ≠ (r, n) := by
        intro h
        exact hr (Prod.mk.inj h).1
      rw [hscores, Table.get_put_of_ne _ _ hkey, hcorr]
      simp only [playerOf, hrooms, Table.get_put_of_ne _ _ hr]

theorem ScoresInv_rooms {s s2 : State} (hs : ScoresInv s) (rid : String) (room : Room)
    (hrooms : s2.rooms = Table.put s.rooms rid room) (hscores : s2.scores = s.scores)
    (hplayers : ∀ name, (JSObject.own room.players name).map Player.clicks =
        (playerOf s rid name).map Player.clicks) : ScoresInv s2 := by
  obtain ⟨hnd, hwf, hcorr⟩ := hs
  refine ⟨by rw [hscores]; exact hnd, by rw [hscores]; exact hwf, ?_⟩
  intro r n
  rw [hscores, hcorr]
  by_cases hr : rid = r
  · subst hr
    simp only [playerOf, hrooms, Table.get_put_self, Option.some_bind]
    exact (hplayers n).symm
  · simp only [playerOf, hrooms, Table.get_put_of_ne _ _ hr]

theorem handleJoin_scoresInv (tc tj : Nat) (c : String) (pn rid : Option String) (s : State)
    (hs : ScoresInv s) (ha : (Action.join c pn rid).avoidsPrototypeNames = true) :
    ScoresInv (handleJoin tc tj c pn rid s).1 := by
  unfold handleJoin
  split
  · rename_i p q hp hq
    obtain ⟨hp1, -⟩ := truthy_eq_some hp
    have hproto : p ≠ "__proto__" := by
      intro he
      rw [hp1, he] at ha
      simp [Action.avoidsPrototypeNames, JSObject.objectPrototypeKeys] at ha
    refine ScoresInv_update hs q p _ _ rfl rfl ⟨rfl, rfl, rfl⟩ ?_ ?_
    · simp only [storedRoom_players, JSObject.own_set_self _ _ _ hproto, Option.map_some']
    · intro name hne
      simp only [storedRoom_players, JSObject.own_set_of_ne _ _ (Ne.symm hne), playerOf]
      cases h : Table.get s.rooms q with
      | some r => simp
      | none => simp [newRoom, JSObject.own]
  · exact hs

theorem handleClick_scoresInv (ts te tu tn inh : Nat) (c rid pn : String) (s : State)
    (hs : ScoresInv s) (ha : (Action.click c rid pn).avoidsPrototypeNames = true) :
    ScoresInv (handleClick ts te tu tn inh c rid pn s).1 := by
  have hproto : pn ∉ JSObject.objectPrototypeKeys := by
    simpa [Action.avoidsPrototypeNames] using ha
  unfold handleClick
  split
  · exact hs
  · rename_i loaded hl
    simp only
    split
    · exact hs
    · split
      · rename_i p hg
        have hown := get_own_iff.1 hg
        rw [startGame_players] at hown
        refine ScoresInv_update hs rid pn _ _ rfl rfl ⟨rfl, rfl, rfl⟩ ?_ ?_
        · simp [JSObject.own_replace, startGame_players, hown]
        · intro name hne
          simp [JSObject.own_replace, startGame_players, Ne.symm hne, playerOf, hl]
      · exact hs
      · rename_i hg
        exact absurd (get_inherited hg) hproto
      · exact hs

theorem endGame_scoresInv (rid : String) (s : State) (hs : ScoresInv s) :
    ScoresInv (endGame rid s).1 := by
  unfold endGame
  split
  · exact hs
  · rename_i loaded hl
    split
    · refine ScoresInv_rooms hs rid _ rfl rfl ?_
      intro name
      simp [playerOf, hl]
    · exact hs

theorem step_scoresInv (env : Env) (a : Action) (s : State) (hs : ScoresInv s)
    (ha : a.avoidsPrototypeNames = true) : ScoresInv (step env a s).1 := by
  cases a with
  | join c pn rid => exact handleJoin_scoresInv _ _ c pn rid s hs ha
  | click c rid pn => exact handleClick_scoresInv _ _ _ _ _ c rid pn s hs ha
  | getLeaderboard c rid => exact hs
  | getRoomState c rid =>
    simp only [step, getRoomState]
    split <;> exact hs
  | unknown c => exact hs
  | endGame rid => exact endGame_scoresInv rid s hs

theorem run_scoresInv (trace : List (Env × Action)) :
    ∀ s : State, ScoresInv s → (∀ ea ∈ trace, ea.2.avoidsPrototypeNames = true) →
      ScoresInv (run trace s).1 := by
  induction trace with
  | nil => intro s hs _; exact hs
  | cons ea rest ih =>
    intro s hs ha
    exact ih _ (step_scoresInv ea.1 ea.2 s hs (ha ea (List.mem_cons_self _ _)))
      (fun x hx => ha x (List.mem_cons_of_mem _ hx))

theorem initial_scoresInv (conns : List (String × Connection)) : ScoresInv (initial conns) := by
  refine ⟨by simp [initial], ?_, ?_⟩
  · intro k item h
    simp [initial, Table.get] at h
  · intro rid name
    simp [initial, Table.get, playerOf]

theorem arraySort_perm {α : Type} (cmp : α → α → Int) (l : List α) :
    (arraySort cmp l).Perm l :=
  List.perm_insertionSort _ _

theorem arraySort_sorted {α : Type} (key : α → Nat) (l : List α) :
    (arraySort (fun a b => (key b : Int) - (key a : Int)) l).Pairwise
      (fun a b => key b ≤ key a) := by
  haveI : IsTotal α (fun a b => (key b : Int) - (key a : Int) ≤ 0) :=
    ⟨fun a b => by omega⟩
  haveI : IsTrans α (fun a b => (key b : Int) - (key a : Int) ≤ 0) :=
    ⟨fun a b c hab hbc => by
      show (key c : Int) - (key a : Int) ≤ 0
      have h1 : (key b : Int) - (key a : Int) ≤ 0 := hab
      have h2 : (key c : Int) - (key b : Int) ≤ 0 := hbc
      omega⟩
  have h := List.sorted_insertionSort (fun a b => (key b : Int) - (key a : Int) ≤ 0) l
  unfold arraySort
  exact List.Pairwise.imp (fun {a b} hab => by
    have h1 : (key b : Int) - (key a : Int) ≤ 0 := hab
    omega) h

theorem queryLeaderboard_eq (scores : List ((String × String) × ScoreItem)) (rid : String) :
    queryLeaderboard scores rid =
      (arraySort (fun a b => (b.GSI1SK : Int) - (a.GSI1SK : Int)) (roomItems scores rid)).take 10 :=
  rfl

/-- Under the invariant, the items of a room are the items filed under the room's
players. -/
theorem mem_roomItems {s : State} (hs : ScoresInv s) (rid : String) (item : ScoreItem) :
    item ∈ roomItems s.scores rid ↔ Table.get s.scores (rid, item.playerName) = some item := by
  obtain ⟨hnd, hwf, -⟩ := hs
  unfold roomItems
  simp only [List.mem_map, List.mem_filter, decide_eq_true_eq]
  constructor
  · rintro ⟨kv, ⟨hmem, hroom⟩, hkv⟩
    obtain ⟨k, it⟩ := kv
    simp only at hkv hroom
    subst hkv
    have hget := Table.get_of_mem hnd hmem
    obtain ⟨h1, h2, -⟩ := hwf k it hget
    have hk : k = (rid, it.playerName) := by
      rw [← hroom, h1, h2]
    rw [← hk]; exact hget
  · intro hget
    exact ⟨((rid, item.playerName), item), ⟨Table.mem_of_get hget, (hwf _ _ hget).1⟩, rfl⟩

theorem nodup_roomItems_names {s : State} (hs : ScoresInv s) (rid : String) :
    ((roomItems s.scores rid).map ScoreItem.playerName).Nodup := by
  have hmemI := mem_roomItems hs rid
  obtain ⟨hnd, hwf, -⟩ := hs
  have hnodup : (roomItems s.scores rid).Nodup := by
    unfold roomItems
    apply List.Nodup.map_on
    · intro x hx y hy hxy
      have hx1 := Table.get_of_mem hnd (List.mem_filter.1 hx).1
      have hy1 := Table.get_of_mem hnd (List.mem_filter.1 hy).1
      have hx2 := (List.mem_filter.1 hx).2
      have hy2 := (List.mem_filter.1 hy).2
      simp only [decide_eq_true_eq] at hx2 hy2
      obtain ⟨a1, a2, -⟩ := hwf _ _ hx1
      obtain ⟨b1, b2, -⟩ := hwf _ _ hy1
      have hk : x.1 = y.1 := by
        apply Prod.ext
        · rw [← a1, ← b1, hx2, hy2]
        · rw [← a2, ← b2, hxy]
      exact Prod.ext hk hxy
    · exact (List.Nodup.of_map Prod.fst hnd).filter _
  apply List.Nodup.map_on _ hnodup
  intro x hx y hy hxy
  have hx1 := (hmemI x).1 hx
  have hy1 := (hmemI y).1 hy
  rw [hxy, hy1] at hx1
  exact (Option.some.inj hx1).symm

theorem own_isSome_iff_mem_keys {α : Type} (o : List (String × α)) (k : String) :
    (JSObject.own o k).isSome = true ↔ k ∈ JSObject.keys o := by
  rw [← not_iff_not, ← JSObject.own_eq_none_iff]
  cases JSObject.own o k <;> simp

/-- Under the invariants, a room has as many leaderboard items as players. -/
theorem length_roomItems {s : State} (hs : ScoresInv s) (hr : StateInv s) (rid : String) :
    (roomItems s.scores rid).length = (roomKeys s rid).length := by
  have hnames := nodup_roomItems_names hs rid
  have hkeys : (roomKeys s rid).Nodup := by
    unfold roomKeys
    cases h : Table.get s.rooms rid with
    | none => simp
    | some r => exact (hr rid r h).2.1
  have hperm : ((roomItems s.scores rid).map ScoreItem.playerName).Perm (roomKeys s rid) := by
    rw [List.perm_ext_iff_of_nodup hnames hkeys]
    intro n
    have hcorr := hs.2.2 rid n
    constructor
    · intro hn
      obtain ⟨item, hitem, hname⟩ := List.mem_map.1 hn
      have hget := (mem_roomItems hs rid item).1 hitem
      rw [hname] at hget
      rw [hget] at hcorr
      unfold roomKeys playerOf at *
      cases h : Table.get s.rooms rid with
      | none => rw [h] at hcorr; simp at hcorr
      | some r =>
        rw [h] at hcorr
        simp only [Option.some_bind, Option.map_some'] at hcorr
        apply (own_isSome_iff_mem_keys r.players n).1
        cases ho : JSObject.own r.players n with
        | none => rw [ho] at hcorr; simp at hcorr
        | some p => rfl
    · intro hn
      unfold roomKeys at hn
      cases h : Table.get s.rooms rid with
      | none => rw [h] at hn; simp at hn
      | some r =>
        rw [h] at hn
        simp only at hn
        have ho := (own_isSome_iff_mem_keys r.players n).2 hn
        cases hp : JSObject.own r.players n with
        | none => rw [hp] at ho; simp at ho
        | some p =>
          simp only [playerOf, h, Option.some_bind, hp, Option.map_some'] at hcorr
          cases hg : Table.get s.scores (rid, n) with
          | none => rw [hg] at hcorr; simp at hcorr
          | some item =>
            have hwf := hs.2.1 _ _ hg
            refine List.mem_map.2 ⟨item, ?_, hwf.2.1⟩
            rw [mem_roomItems hs rid item, hwf.2.1]
            exact hg
  simpa using hperm.length_eq

/-! ## The claim on the leaderboard -/

/-- C14, the code at the failing input. After alice has joined room r1 and a click under
the name constructor has been accepted, the room has one player, alice, but
`getLeaderboard` returns two entries, the first of them for constructor with 1 click,
which is no player of the stored room. `getLeaderboard` itself leaves the table as it is
and sends only the reply to the caller. -/
theorem leaderboard_lists_inherited_name :
    roomKeys (run strayLeaderboardTrace (initial sampleConns)).1 "r1" = ["alice"] ∧
    playerOf (run strayLeaderboardTrace (initial sampleConns)).1 "r1" "constructor" = none ∧
    getLeaderboard "c1" "r1" (run strayLeaderboardTrace (initial sampleConns)).1 =
      ((run strayLeaderboardTrace (initial sampleConns)).1,
       { sends := [("c1", Message.leaderboard "r1"
            [{ name := "constructor", clicks := 1 }, { name := "alice", clicks := 0 }])],
         timers := [] }) := by
  decide

/-- What the code keeps of C14: after a trace from a table without rooms in which no
action names a property of `Object.prototype` as player, `getLeaderboard` for a room
returns min(10, number of players) entries, non-increasing in clicks, each with the
click count the stored room has for that player, and no player left out has more clicks
than a returned one; it changes no stored state and sends only the reply. -/
theorem getLeaderboard_top_ten (conns : List (String × Connection))
    (trace : List (Env × Action)) (rid : String)
    (ha : ∀ ea ∈ trace, ea.2.avoidsPrototypeNames = true) :
    (leaderboardOf (run trace (initial conns)).1 rid).length =
      min 10 (roomKeys (run trace (initial conns)).1 rid).length ∧
    (leaderboardOf (run trace (initial conns)).1 rid).Pairwise
      (fun a b => b.clicks ≤ a.clicks) ∧
    (∀ e ∈ leaderboardOf (run trace (initial conns)).1 rid,
      ∃ p, playerOf (run trace (initial conns)).1 rid e.name = some p ∧ p.clicks = e.clicks) ∧
    (∀ name p, playerOf (run trace (initial conns)).1 rid name = some p →
      name ∉ (leaderboardOf (run trace (initial conns)).1 rid).map Score.name →
      ∀ e ∈ leaderboardOf (run trace (initial conns)).1 rid, p.clicks ≤ e.clicks) ∧
    (∀ c, getLeaderboard c rid (run trace (initial conns)).1 =
      ((run trace (initial conns)).1,
       { sends := [(c, Message.leaderboard rid
            (leaderboardOf (run trace (initial conns)).1 rid))],
         timers := [] })) := by
  have hs : ScoresInv (run trace (initial conns)).1 :=
    run_scoresInv trace _ (initial_scoresInv conns) ha
  have hr : StateInv (run trace (initial conns)).1 := run_inv trace _ (initial_inv conns)
  generalize (run trace (initial conns)).1 = s at hs hr
  have hperm := arraySort_perm (fun a b : ScoreItem => (b.GSI1SK : Int) - (a.GSI1SK : Int))
    (roomItems s.scores rid)
  have hsorted := arraySort_sorted ScoreItem.GSI1SK (roomItems s.scores rid)
  have hmemq : ∀ item, item ∈ queryLeaderboard s.scores rid →
      Table.get s.scores (rid, item.playerName) = some item := by
    intro item hi
    rw [queryLeaderboard_eq] at hi
    exact (mem_roomItems hs rid item).1 (hperm.subset (List.mem_of_mem_take hi))
  refine ⟨?_, ?_, ?_, ?_, ?_⟩
  · simp only [leaderboardOf, List.length_map, queryLeaderboard_eq, List.length_take,
      hperm.length_eq, length_roomItems hs hr rid]
  · simp only [leaderboardOf, List.pairwise_map]
    have hq : (queryLeaderboard s.scores rid).Pairwise
        (fun a b => b.GSI1SK ≤ a.GSI1SK) := by
      rw [queryLeaderboard_eq]
      exact hsorted.sublist (List.take_sublist _ _)
    refine List.Pairwise.imp_of_mem ?_ hq
    intro a b hma hmb hab
    rw [← (hs.2.1 _ _ (hmemq a hma)).2.2, ← (hs.2.1 _ _ (hmemq b hmb)).2.2]
    exact hab
  · intro e he
    obtain ⟨item, hi, hie⟩ := List.mem_map.1 he
    have hget := hmemq item hi
    have hcorr := hs.2.2 rid item.playerName
    rw [hget] at hcorr
    rw [← hie]
    cases hp : playerOf s rid item.playerName with
    | none => rw [hp] at hcorr; simp at hcorr
    | some p =>
      rw [hp] at hcorr
      simp only [Option.map_some', Option.some.injEq] at hcorr
      exact ⟨p, rfl, hcorr.symm⟩
  · intro name p hp hout e he
    obtain ⟨top, htop, htope⟩ := List.mem_map.1 he
    have hcorr := hs.2.2 rid name
    rw [hp] at hcorr
    cases hg : Table.get s.scores (rid, name) with
    | none => rw [hg] at hcorr; simp at hcorr
    | some item =>
      rw [hg] at hcorr
      simp only [Option.map_some', Option.some.injEq] at hcorr
      have hwf := hs.2.1 _ _ hg
      simp only at hwf
      have hitem : item ∈ roomItems s.scores rid := by
        rw [mem_roomItems hs rid item, hwf.2.1]; exact hg
      have hsortedmem := hperm.symm.subset hitem
      rw [← List.take_append_drop 10 (arraySort _ (roomItems s.scores rid))] at hsortedmem hsorted
      have hnot : item ∉ queryLeaderboard s.scores rid := by
        intro hin
        apply hout
        exact List.mem_map.2 ⟨{ name := item.playerName, clicks := item.clicks },
          List.mem_map.2 ⟨item, hin, rfl⟩, hwf.2.1⟩
      rw [queryLeaderboard_eq] at hnot htop
      have hdrop := (List.mem_append.1 hsortedmem).resolve_left hnot
      have hle := (List.pairwise_append.1 hsorted).2.2 top htop item hdrop
      have htopwf := hs.2.1 _ _ (hmemq top (by rw [queryLeaderboard_eq]; exact htop))
      rw [← htope, ← hcorr]
      simp only
      rw [← hwf.2.2, ← htopwf.2.2]
      exact hle
  · intro c
    rfl

end ClickRace
